import Mathlib

/-!
Verification of the mini-dynamo key-value store core.

This file shallowly embeds the Go source of the repository:
  * `internal/store/store.go`   — `Record`, `MemStore`, `PutLWW`, `ApplyLWW`
  * `internal/store/lww.go`     — `Newer` (Last-Write-Wins merge)
  * the WAL (`Append`, `Replay`)
  * `internal/hints/hints.go`   — the hint manager (`addLocked`, `Add`, `replay`)
  * the coordinator (`PutRecord`, `Get` read-repair, `sameVersion`)
  * the ring (`New`, `GetReplicas`, `search`, FNV-1a hashing)
and proves, or refutes, the specification claims about them.

Machine integers: Go `int64` timestamps are modelled as `Int` (comparisons
only, no arithmetic, so no overflow is reachable); ring tokens are `Nat`
reduced mod `2 ^ 64` exactly where the Go code wraps.  Go compares strings
bytewise-lexicographically, so the ordered `WriterID` string is modelled as
its byte list (`List Nat`) with the lexicographic order `bytesLt`; keys are
only ever compared for equality and stay `String`.  Go `[]byte` values are
`List Nat`; `bytes.Equal` identifies nil and empty slices, as does
`[] = []`.  Maps are total functions into `Option`.
-/

namespace MiniDynamo

/-- Go's `<` on byte strings: lexicographic, a strict prefix is smaller. -/
def bytesLt : List Nat → List Nat → Bool
  | _, [] => false
  | [], _ :: _ => true
  | a :: as, b :: bs =>
    if a < b then true else if b < a then false else bytesLt as bs

theorem bytesLt_irrefl : ∀ a : List Nat, bytesLt a a = false := by
  intro a
  induction a with
  | nil => rfl
  | cons x xs ih => simp [bytesLt, ih]

theorem bytesLt_asymm :
    ∀ {a b : List Nat}, bytesLt a b = true → bytesLt b a = true → False := by
  intro a
  induction a with
  | nil =>
    intro b h h'
    cases b with
    | nil => simp [bytesLt] at h
    | cons y ys => simp [bytesLt] at h'
  | cons x xs ih =>
    intro b h h'
    cases b with
    | nil => simp [bytesLt] at h
    | cons y ys =>
      simp only [bytesLt] at h h'
      by_cases hxy : x < y
      · rw [if_neg (Nat.lt_asymm hxy), if_pos hxy] at h'
        exact absurd h' (by simp)
      · rw [if_neg hxy] at h
        by_cases hyx : y < x
        · rw [if_pos hyx] at h
          exact absurd h (by simp)
        · rw [if_neg hyx] at h
          rw [if_neg hyx, if_neg hxy] at h'
          exact ih h h'

theorem bytesLt_trans :
    ∀ {a b c : List Nat}, bytesLt a b = true → bytesLt b c = true →
      bytesLt a c = true := by
  intro a
  induction a with
  | nil =>
    intro b c h h'
    cases b with
    | nil => simp [bytesLt] at h
    | cons y ys =>
      cases c with
      | nil => simp [bytesLt] at h'
      | cons z zs => simp [bytesLt]
  | cons x xs ih =>
    intro b c h h'
    cases b with
    | nil => simp [bytesLt] at h
    | cons y ys =>
      cases c with
      | nil => simp [bytesLt] at h'
      | cons z zs =>
        simp only [bytesLt] at h h' ⊢
        by_cases hxy : x < y <;> by_cases hyz : y < z
        · rw [if_pos (Nat.lt_trans hxy hyz)]
        · rw [if_neg hyz] at h'
          by_cases hzy : z < y
          · rw [if_pos hzy] at h'
            exact absurd h' (by simp)
          · rw [if_neg hzy] at h'
            have hyzeq : y = z := Nat.le_antisymm (Nat.le_of_not_lt hzy) (Nat.le_of_not_lt hyz)
            rw [if_pos (hyzeq ▸ hxy)]
        · rw [if_neg hxy] at h
          by_cases hyx : y < x
          · rw [if_pos hyx] at h
            exact absurd h (by simp)
          · rw [if_neg hyx] at h
            have hxyeq : x = y := Nat.le_antisymm (Nat.le_of_not_lt hyx) (Nat.le_of_not_lt hxy)
            rw [if_pos (hxyeq ▸ hyz)]
        · rw [if_neg hxy] at h
          by_cases hyx : y < x
          · rw [if_pos hyx] at h
            exact absurd h (by simp)
          · rw [if_neg hyx] at h
            rw [if_neg hyz] at h'
            by_cases hzy : z < y
            · rw [if_pos hzy] at h'
              exact absurd h' (by simp)
            · rw [if_neg hzy] at h'
              have hxyeq : x = y := Nat.le_antisymm (Nat.le_of_not_lt hyx) (Nat.le_of_not_lt hxy)
              have hyzeq : y = z := Nat.le_antisymm (Nat.le_of_not_lt hzy) (Nat.le_of_not_lt hyz)
              subst hxyeq; subst hyzeq
              rw [if_neg (lt_irrefl x), if_neg (lt_irrefl x)]
              exact ih h h'

theorem bytesLt_total :
    ∀ {a b : List Nat}, bytesLt a b = false → bytesLt b a = false → a = b := by
  intro a
  induction a with
  | nil =>
    intro b h _
    cases b with
    | nil => rfl
    | cons y ys => simp [bytesLt] at h
  | cons x xs ih =>
    intro b h h'
    cases b with
    | nil => simp [bytesLt] at h'
    | cons y ys =>
      simp only [bytesLt] at h h'
      by_cases hxy : x < y
      · rw [if_pos hxy] at h
        exact absurd h (by simp)
      · by_cases hyx : y < x
        · rw [if_pos hyx] at h'
          exact absurd h' (by simp)
        · rw [if_neg hxy, if_neg hyx] at h
          rw [if_neg hyx, if_neg hxy] at h'
          have hxyeq : x = y :=
            Nat.le_antisymm (Nat.le_of_not_lt hyx) (Nat.le_of_not_lt hxy)
          rw [hxyeq, ih h h']

/-- `store.Record` from `internal/store/store.go`; `writerID` is the byte
list of the Go `WriterID` string. -/
structure Record where
  key : String
  value : List Nat
  ts : Int
  writerID : List Nat
  deleted : Bool
deriving DecidableEq, Repr

/-- `Newer` from `internal/store/lww.go`:
higher `Ts` wins; on a `Ts` tie, `a.WriterID >= b.WriterID` returns `a`
(so the first argument wins ties, including exact `(ts, writer_id)` ties);
Go's `a >= b` on strings is `¬ (a < b)`. -/
def Newer (a b : Record) : Record :=
  if b.ts < a.ts then a
  else if a.ts < b.ts then b
  else if bytesLt a.writerID b.writerID then b
  else a

/-- `sameVersion` from the coordinator: versions compare by `(ts, writer_id)` only. -/
def sameVersion (a b : Record) : Prop :=
  a.ts = b.ts ∧ a.writerID = b.writerID

instance (a b : Record) : Decidable (sameVersion a b) := by
  unfold sameVersion; infer_instance

/-- The spec's strict version order `<v`:
`a <v b` iff `a.ts < b.ts`, or `a.ts = b.ts` and `a.writer_id < b.writer_id`
(lexicographic on bytes). -/
def ltv (a b : Record) : Prop :=
  a.ts < b.ts ∨ (a.ts = b.ts ∧ bytesLt a.writerID b.writerID = true)

instance (a b : Record) : Decidable (ltv a b) := by
  unfold ltv; infer_instance

theorem ltv_irrefl (a : Record) : ¬ ltv a a := by
  simp [ltv, bytesLt_irrefl]

theorem ltv_asymm {a b : Record} (h : ltv a b) (h' : ltv b a) : False := by
  rcases h with h | ⟨he, hw⟩ <;> rcases h' with h' | ⟨he', hw'⟩
  · exact absurd h' (not_lt_of_lt h)
  · omega
  · omega
  · exact bytesLt_asymm hw hw'

theorem ltv_trans {a b c : Record} (h : ltv a b) (h' : ltv b c) : ltv a c := by
  rcases h with h | ⟨he, hw⟩ <;> rcases h' with h' | ⟨he', hw'⟩
  · exact Or.inl (lt_trans h h')
  · exact Or.inl (he' ▸ h)
  · exact Or.inl (he ▸ h')
  · exact Or.inr ⟨he.trans he', bytesLt_trans hw hw'⟩

theorem sameVersion_symm {a b : Record} (h : sameVersion a b) : sameVersion b a :=
  ⟨h.1.symm, h.2.symm⟩

theorem not_ltv_of_sameVersion {a b : Record} (h : sameVersion a b) : ¬ ltv a b := by
  rcases h with ⟨ht, hw⟩
  rintro (h' | ⟨_, h'⟩)
  · omega
  · rw [hw, bytesLt_irrefl] at h'
    exact absurd h' (by simp)

/-- `Newer` never mixes fields: it returns one of its arguments. -/
theorem newer_eq_or (a b : Record) : Newer a b = a ∨ Newer a b = b := by
  unfold Newer
  split
  · exact Or.inl rfl
  · split
    · exact Or.inr rfl
    · split
      · exact Or.inr rfl
      · exact Or.inl rfl

theorem newer_self (a : Record) : Newer a a = a := by
  simp [Newer, bytesLt_irrefl]

/-- On version-distinct arguments, `Newer` returns the strict `<v`-maximum. -/
theorem newer_max_of_not_sameVersion {a b : Record} (h : ¬ sameVersion a b) :
    (Newer a b = a ∧ ltv b a) ∨ (Newer a b = b ∧ ltv a b) := by
  unfold Newer
  split
  · exact Or.inl ⟨rfl, Or.inl (by assumption)⟩
  · split
    · exact Or.inr ⟨rfl, Or.inl (by assumption)⟩
    · have hts : a.ts = b.ts := by omega
      have hwne : a.writerID ≠ b.writerID := fun hw => h ⟨hts, hw⟩
      split
      · rename_i hlt
        exact Or.inr ⟨rfl, Or.inr ⟨hts, hlt⟩⟩
      · rename_i hnlt
        have hab : bytesLt a.writerID b.writerID = false :=
          Bool.not_eq_true _ ▸ hnlt
        cases hba : bytesLt b.writerID a.writerID with
        | true => exact Or.inl ⟨rfl, Or.inr ⟨hts.symm, hba⟩⟩
        | false => exact absurd (bytesLt_total hba hab) hwne.symm

/-- On an exact `(ts, writer_id)` tie, `Newer` returns its first argument. -/
theorem newer_of_sameVersion {a b : Record} (h : sameVersion a b) : Newer a b = a := by
  rcases h with ⟨ht, hw⟩
  simp [Newer, ht, hw, bytesLt_irrefl]

/-- If `Newer a b` is not `a`, it is `b` and `a <v b` strictly. -/
theorem newer_ne_left {a b : Record} (h : Newer a b ≠ a) :
    Newer a b = b ∧ ltv a b := by
  by_cases hs : sameVersion a b
  · exact absurd (newer_of_sameVersion hs) h
  · rcases newer_max_of_not_sameVersion hs with ⟨he, _⟩ | ⟨he, hl⟩
    · exact absurd he h
    · exact ⟨he, hl⟩

theorem newer_absorb (a b : Record) : Newer a (Newer a b) = Newer a b := by
  rcases newer_eq_or a b with h | h
  · rw [h, newer_self]
  · by_cases hh : Newer a b = a
    · rw [hh] at h; rw [hh, newer_self]
    · rcases newer_ne_left hh with ⟨he, _⟩
      conv_lhs => rw [he]

/-! ### The local store (`MemStore`) and its WAL -/

/-- `MemStore.m`: the in-memory map, as a total function into `Option`. -/
def StoreMap : Type := String → Option Record

def StoreMap.empty : StoreMap := fun _ => none

def StoreMap.insert (m : StoreMap) (k : String) (r : Record) : StoreMap :=
  fun k' => if k' = k then some r else m k'

theorem StoreMap.insert_same (m : StoreMap) (k : String) (r : Record) :
    m.insert k r k = some r := by
  simp [StoreMap.insert]

theorem StoreMap.insert_other (m : StoreMap) {k k' : String} (r : Record)
    (h : k' ≠ k) : m.insert k r k' = m k' := by
  simp [StoreMap.insert, h]

/-- A store paired with its WAL contents (the list of appended records, in
append order). -/
structure StoreSt where
  m : StoreMap
  wal : List Record

def StoreSt.empty : StoreSt := ⟨StoreMap.empty, []⟩

/-- The "if nothing changes, do nothing (do not bloat the WAL)" test of
`PutLWW`: the winner agrees with the current record in `ts`, `writer_id`,
`deleted` and (byte-equal) `value`. -/
def noopCond (cur rec : Record) : Prop :=
  (Newer cur rec).ts = cur.ts ∧ (Newer cur rec).writerID = cur.writerID ∧
    (Newer cur rec).deleted = cur.deleted ∧ (Newer cur rec).value = cur.value

instance (cur rec : Record) : Decidable (noopCond cur rec) := by
  unfold noopCond; infer_instance

/-- `MemStore.PutLWW` from `internal/store/store.go`, parametrised by whether
the underlying `WAL.Append` call succeeds.  The Go code discards the append
error (`_ = s.wal.Append(...)`), so the in-memory branch structure is the
same either way: if no prior record, store the incoming record; else merge
with `Newer` and skip all work when the winner matches the current record in
`ts`, `writer_id`, `deleted` and (byte-equal) `value`.  Returns the winner. -/
def putLWWg (appendOk : Bool) (s : StoreSt) (rec : Record) : StoreSt × Record :=
  match s.m rec.key with
  | none =>
    (⟨s.m.insert rec.key rec, if appendOk then s.wal ++ [rec] else s.wal⟩, rec)
  | some cur =>
    if noopCond cur rec then
      (s, cur)
    else
      (⟨s.m.insert rec.key (Newer cur rec),
        if appendOk then s.wal ++ [Newer cur rec] else s.wal⟩,
       Newer cur rec)

/-- `PutLWW` with a healthy WAL (the durable success path). -/
def putLWW (s : StoreSt) (rec : Record) : StoreSt × Record := putLWWg true s rec

/-- `MemStore.ApplyLWW`: LWW merge without touching the WAL (startup replay). -/
def applyLWW (m : StoreMap) (rec : Record) : StoreMap × Record :=
  match m rec.key with
  | none => (m.insert rec.key rec, rec)
  | some cur => (m.insert rec.key (Newer cur rec), Newer cur rec)

/-- A sequence of `PutLWW` calls starting from the empty store. -/
def runPuts (ops : List Record) : StoreSt :=
  ops.foldl (fun s r => (putLWW s r).1) StoreSt.empty

/-- `WAL.Replay` applied with `store.ApplyLWW` from the empty store: each
decoded record with a non-empty key is applied in order (records with empty
key are skipped, as in `Replay`). -/
def replayRecords (wal : List Record) : StoreMap :=
  wal.foldl (fun m r => if r.key = "" then m else (applyLWW m r).1) StoreMap.empty

/-! ### The `<v`-maximum of a collection of versions -/

/-- `w` is the `<v`-maximum of `rs`: it is an element, and every other
element is strictly `<v`-below it. -/
def IsVMax (w : Record) (rs : List Record) : Prop :=
  w ∈ rs ∧ ∀ r ∈ rs, r = w ∨ ltv r w

theorem isVMax_unique {w w' : Record} {rs : List Record}
    (h : IsVMax w rs) (h' : IsVMax w' rs) : w' = w := by
  rcases h with ⟨hw, hmax⟩
  rcases h' with ⟨hw', hmax'⟩
  rcases hmax w' hw' with h1 | h1
  · exact h1
  · rcases hmax' w hw with h2 | h2
    · exact h2.symm
    · exact absurd h1 (fun hh => ltv_asymm hh h2)

theorem isVMax_of_perm {w : Record} {rs rs' : List Record}
    (hp : rs.Perm rs') (h : IsVMax w rs) : IsVMax w rs' := by
  rcases h with ⟨hw, hmax⟩
  exact ⟨hp.mem_iff.mp hw, fun r hr => hmax r (hp.mem_iff.mpr hr)⟩

/-- Folding `Newer` over a version-distinct list computes its `<v`-maximum. -/
theorem foldl_newer_isVMax :
    ∀ (l : List Record) (a : Record),
      (a :: l).Pairwise (fun x y => ¬ sameVersion x y) →
      IsVMax (l.foldl Newer a) (a :: l) := by
  intro l
  induction l with
  | nil =>
    intro a _
    exact ⟨List.mem_singleton.mpr rfl, fun r hr => Or.inl (List.mem_singleton.mp hr)⟩
  | cons b t ih =>
    intro a hpw
    have hab : ¬ sameVersion a b := (List.pairwise_cons.mp hpw).1 b (List.mem_cons_self _ _)
    have hpw' : (Newer a b :: t).Pairwise (fun x y => ¬ sameVersion x y) := by
      rcases List.pairwise_cons.mp hpw with ⟨ha, hbt⟩
      rcases List.pairwise_cons.mp hbt with ⟨hb, ht⟩
      refine List.pairwise_cons.mpr ⟨?_, ht⟩
      intro x hx
      rcases newer_eq_or a b with h | h <;> rw [h]
      · exact ha x (List.mem_cons_of_mem _ hx)
      · exact hb x hx
    have hmax := ih (Newer a b) hpw'
    rcases hmax with ⟨hmem, hdom⟩
    have hwin : ∀ r : Record, (r = a ∨ r = b) → r ≠ Newer a b → ltv r (Newer a b) := by
      intro r hr hne
      rcases newer_max_of_not_sameVersion hab with ⟨he, hl⟩ | ⟨he, hl⟩ <;>
        rcases hr with rfl | rfl <;> rw [he] at hne ⊢
      · exact absurd rfl hne
      · exact hl
      · exact hl
      · exact absurd rfl hne
    simp only [List.foldl_cons]
    constructor
    · rcases List.mem_cons.mp hmem with h | h
      · rw [h]
        rcases newer_eq_or a b with hn | hn <;> rw [hn]
        · exact List.mem_cons_self _ _
        · exact List.mem_cons_of_mem _ (List.mem_cons_self _ _)
      · exact List.mem_cons_of_mem _ (List.mem_cons_of_mem _ h)
    · intro r hr
      have hstep : ∀ x : Record, x = Newer a b ∨ ltv x (Newer a b) →
          x = t.foldl Newer (Newer a b) ∨ ltv x (t.foldl Newer (Newer a b)) := by
        intro x hx
        rcases hdom (Newer a b) (List.mem_cons_self _ _) with hh | hh
        · rcases hx with hx | hx
          · exact Or.inl (hx.trans hh)
          · exact Or.inr (hh ▸ hx)
        · rcases hx with hx | hx
          · exact Or.inr (hx ▸ hh)
          · exact Or.inr (ltv_trans hx hh)
      rcases List.mem_cons.mp hr with h1 | hr'
      · by_cases hne : r = Newer a b
        · exact hstep r (Or.inl hne)
        · exact hstep r (Or.inr (hwin r (Or.inl h1) hne))
      · rcases List.mem_cons.mp hr' with h2 | hr''
        · by_cases hne : r = Newer a b
          · exact hstep r (Or.inl hne)
          · exact hstep r (Or.inr (hwin r (Or.inr h2) hne))
        · exact hdom r (List.mem_cons_of_mem _ hr'')

/-! ### Store invariants -/

theorem record_eq_of_fields {x y : Record} (h1 : x.key = y.key)
    (h2 : x.value = y.value) (h3 : x.ts = y.ts) (h4 : x.writerID = y.writerID)
    (h5 : x.deleted = y.deleted) : x = y := by
  cases x; cases y; simp_all

/-- Every record stored in the map sits under its own key. -/
def KeysOk (m : StoreMap) : Prop := ∀ k r, m k = some r → r.key = k

theorem keysOk_empty : KeysOk StoreMap.empty := by
  intro k r h
  simp [StoreMap.empty] at h

theorem putLWWg_none_eq' (ok : Bool) (s : StoreSt) (rec : Record)
    (h : s.m rec.key = none) :
    putLWWg ok s rec =
      (⟨s.m.insert rec.key rec, if ok then s.wal ++ [rec] else s.wal⟩, rec) := by
  unfold putLWWg
  rw [h]

theorem putLWWg_some_noop' (ok : Bool) (s : StoreSt) (rec cur : Record)
    (h : s.m rec.key = some cur) (hc : noopCond cur rec) :
    putLWWg ok s rec = (s, cur) := by
  unfold putLWWg
  rw [h]
  simp only [if_pos hc]

theorem putLWWg_some_change' (ok : Bool) (s : StoreSt) (rec cur : Record)
    (h : s.m rec.key = some cur) (hc : ¬ noopCond cur rec) :
    putLWWg ok s rec =
      (⟨s.m.insert rec.key (Newer cur rec),
        if ok then s.wal ++ [Newer cur rec] else s.wal⟩, Newer cur rec) := by
  unfold putLWWg
  rw [h]
  simp only [if_neg hc]

/-- Under `noopCond`, and when the current record sits under the incoming
record's key, the winner is the current record itself (all five fields agree). -/
theorem noop_winner_eq {cur rec : Record} (hc : noopCond cur rec)
    (hkey : cur.key = rec.key) : Newer cur rec = cur := by
  unfold noopCond at hc
  rcases hc with ⟨h1, h2, h3, h4⟩
  have hk : (Newer cur rec).key = cur.key := by
    rcases newer_eq_or cur rec with hn | hn <;> rw [hn]
    exact hkey.symm
  exact record_eq_of_fields hk h4 h1 h2 h3

theorem putLWWg_m_other (ok : Bool) (s : StoreSt) (rec : Record) {k : String}
    (h : k ≠ rec.key) : (putLWWg ok s rec).1.m k = s.m k := by
  cases hcur : s.m rec.key with
  | none =>
    rw [putLWWg_none_eq' ok s rec hcur]
    exact StoreMap.insert_other s.m rec h
  | some cur =>
    by_cases hc : noopCond cur rec
    · rw [putLWWg_some_noop' ok s rec cur hcur hc]
    · rw [putLWWg_some_change' ok s rec cur hcur hc]
      exact StoreMap.insert_other s.m _ h

theorem putLWWg_m_none (ok : Bool) (s : StoreSt) (rec : Record)
    (h : s.m rec.key = none) : (putLWWg ok s rec).1.m rec.key = some rec := by
  rw [putLWWg_none_eq' ok s rec h]
  exact StoreMap.insert_same s.m rec.key rec

theorem putLWWg_m_some (ok : Bool) (s : StoreSt) (rec cur : Record)
    (h : s.m rec.key = some cur) (hkey : cur.key = rec.key) :
    (putLWWg ok s rec).1.m rec.key = some (Newer cur rec) := by
  by_cases hc : noopCond cur rec
  · rw [putLWWg_some_noop' ok s rec cur h hc, h, noop_winner_eq hc hkey]
  · rw [putLWWg_some_change' ok s rec cur h hc]
    exact StoreMap.insert_same s.m _ _

theorem putLWWg_keysOk (ok : Bool) (s : StoreSt) (rec : Record)
    (h : KeysOk s.m) : KeysOk (putLWWg ok s rec).1.m := by
  intro k r hr
  by_cases hk : k = rec.key
  · subst hk
    cases hcur : s.m rec.key with
    | none =>
      rw [putLWWg_m_none ok s rec hcur] at hr
      cases hr; rfl
    | some cur =>
      rw [putLWWg_m_some ok s rec cur hcur (h _ _ hcur)] at hr
      cases hr
      rcases newer_eq_or cur rec with hn | hn <;> rw [hn]
      exact h _ _ hcur
  · rw [putLWWg_m_other ok s rec hk] at hr
    exact h k r hr

/-- `PutLWW` iterated from an arbitrary starting state. -/
def runPutsFrom (s : StoreSt) (ops : List Record) : StoreSt :=
  ops.foldl (fun s r => (putLWW s r).1) s

theorem runPuts_eq_from (ops : List Record) : runPuts ops = runPutsFrom StoreSt.empty ops := rfl

theorem runPutsFrom_keysOk (ops : List Record) :
    ∀ (s : StoreSt), KeysOk s.m → KeysOk (runPutsFrom s ops).m := by
  induction ops with
  | nil => intro s h; exact h
  | cons r t ih =>
    intro s h
    exact ih _ (putLWWg_keysOk true s r h)

/-- Folding `PutLWW` over records that all live at key `k` folds `Newer`
over the stored value at `k`. -/
theorem runPutsFrom_m_at_key {k : String} :
    ∀ (l : List Record) (s : StoreSt) (c : Record),
      KeysOk s.m → (∀ r ∈ l, r.key = k) → s.m k = some c →
      (runPutsFrom s l).m k = some (l.foldl Newer c) := by
  intro l
  induction l with
  | nil => intro s c _ _ hc; exact hc
  | cons r t ih =>
    intro s c hkeys hl hc
    have hrk : r.key = k := hl r (List.mem_cons_self _ _)
    have hck : c.key = r.key := (hkeys k c hc).trans hrk.symm
    have hstep : (putLWW s r).1.m k = some (Newer c r) := by
      have := putLWWg_m_some true s r c (hrk ▸ hc) hck
      rwa [hrk] at this
    simp only [runPutsFrom, List.foldl_cons]
    exact ih _ _ (putLWWg_keysOk true s r hkeys)
      (fun x hx => hl x (List.mem_cons_of_mem _ hx)) hstep

/-! ### Claim C1: LWW convergence -/

/-- Claim C1 (LWW convergence): starting from the empty store, applying
`store.PutLWW` to any permutation `rs'` of a version-distinct collection
`rs` of records of key `k` leaves, at `k`, exactly the unique maximum of
`rs` under the version order `<v`. -/
theorem lww_convergence_C1 (k : String) (rs rs' : List Record)
    (hperm : rs.Perm rs') (hne : rs ≠ [])
    (hkey : ∀ r ∈ rs, r.key = k)
    (hdist : rs.Pairwise (fun a b => ¬ sameVersion a b)) :
    ∃ w, IsVMax w rs ∧ (∀ w', IsVMax w' rs → w' = w) ∧
      (runPuts rs').m k = some w := by
  have hkey' : ∀ r ∈ rs', r.key = k := fun r hr => hkey r (hperm.mem_iff.mpr hr)
  have hdist' : rs'.Pairwise (fun a b => ¬ sameVersion a b) :=
    (List.Perm.pairwise_iff (fun h hs => h (sameVersion_symm hs)) hperm).mp hdist
  cases rs' with
  | nil =>
    exact absurd hperm.eq_nil hne
  | cons a t =>
    refine ⟨t.foldl Newer a, ?_, ?_, ?_⟩
    · exact isVMax_of_perm hperm.symm (foldl_newer_isVMax t a hdist')
    · intro w' hw'
      exact isVMax_unique (isVMax_of_perm hperm.symm (foldl_newer_isVMax t a hdist')) hw'
    · have ha : a.key = k := hkey' a (List.mem_cons_self _ _)
      have hstep : (putLWW StoreSt.empty a).1.m k = some a := by
        have := putLWWg_m_none true StoreSt.empty a rfl
        rwa [ha] at this
      rw [runPuts_eq_from]
      simp only [runPutsFrom, List.foldl_cons]
      exact runPutsFrom_m_at_key t _ a
        (putLWWg_keysOk true StoreSt.empty a keysOk_empty)
        (fun x hx => hkey' x (List.mem_cons_of_mem _ hx)) hstep

theorem newer_key_of_keysOk {s : StoreSt} {rec cur : Record}
    (hkeys : KeysOk s.m) (h : s.m rec.key = some cur) :
    (Newer cur rec).key = rec.key := by
  rcases newer_eq_or cur rec with hn | hn <;> rw [hn]
  exact hkeys _ _ h

/-! ### Claim C2: WAL round-trip -/

theorem applyLWW_eq_none (m : StoreMap) (rec : Record) (h : m rec.key = none) :
    applyLWW m rec = (m.insert rec.key rec, rec) := by
  unfold applyLWW
  rw [h]

theorem applyLWW_eq_some (m : StoreMap) (rec cur : Record) (h : m rec.key = some cur) :
    applyLWW m rec = (m.insert rec.key (Newer cur rec), Newer cur rec) := by
  unfold applyLWW
  rw [h]

theorem replayRecords_append (wal : List Record) (r : Record) :
    replayRecords (wal ++ [r]) =
      if r.key = "" then replayRecords wal else (applyLWW (replayRecords wal) r).1 := by
  simp [replayRecords, List.foldl_append]

/-- One `PutLWW` step preserves "replaying the WAL from empty rebuilds the map". -/
theorem putLWW_step_replay (s : StoreSt) (rec : Record) (hkeys : KeysOk s.m)
    (hrk : rec.key ≠ "") (hinv : ∀ k, replayRecords s.wal k = s.m k) :
    ∀ k, replayRecords (putLWW s rec).1.wal k = (putLWW s rec).1.m k := by
  intro k
  unfold putLWW
  cases hcur : s.m rec.key with
  | none =>
    rw [putLWWg_none_eq' true s rec hcur]
    have happ := replayRecords_append s.wal rec
    rw [if_neg hrk] at happ
    have hm : replayRecords s.wal rec.key = none := (hinv rec.key).trans hcur
    dsimp only
    rw [if_pos rfl, happ, applyLWW_eq_none _ _ hm]
    dsimp only
    by_cases hk : k = rec.key
    · subst hk
      rw [StoreMap.insert_same, StoreMap.insert_same]
    · rw [StoreMap.insert_other _ _ hk, StoreMap.insert_other _ _ hk]
      exact hinv k
  | some cur =>
    by_cases hc : noopCond cur rec
    · rw [putLWWg_some_noop' true s rec cur hcur hc]
      exact hinv k
    · rw [putLWWg_some_change' true s rec cur hcur hc]
      have hwk : (Newer cur rec).key = rec.key := newer_key_of_keysOk hkeys hcur
      have hwne : (Newer cur rec).key ≠ "" := by rw [hwk]; exact hrk
      have happ := replayRecords_append s.wal (Newer cur rec)
      rw [if_neg hwne] at happ
      have hm : replayRecords s.wal (Newer cur rec).key = some cur := by
        rw [hwk, hinv rec.key]
        exact hcur
      dsimp only
      rw [if_pos rfl, happ, applyLWW_eq_some _ _ _ hm, newer_absorb, hwk]
      dsimp only
      by_cases hk : k = rec.key
      · subst hk
        rw [StoreMap.insert_same, StoreMap.insert_same]
      · rw [StoreMap.insert_other _ _ hk, StoreMap.insert_other _ _ hk]
        exact hinv k

theorem runPutsFrom_replay (ops : List Record) :
    ∀ (s : StoreSt), KeysOk s.m → (∀ r ∈ ops, r.key ≠ "") →
      (∀ k, replayRecords s.wal k = s.m k) →
      ∀ k, replayRecords (runPutsFrom s ops).wal k = (runPutsFrom s ops).m k := by
  induction ops with
  | nil => intro s _ _ hinv k; exact hinv k
  | cons r t ih =>
    intro s hkeys hops hinv k
    simp only [runPutsFrom, List.foldl_cons]
    exact ih _ (putLWWg_keysOk true s r hkeys)
      (fun x hx => hops x (List.mem_cons_of_mem _ hx))
      (putLWW_step_replay s r hkeys (hops r (List.mem_cons_self _ _)) hinv) k

/-- Claim C2 (WAL round-trip): for any sequence of `PutLWW` calls of
non-empty-key records starting from the empty store (no snapshot), replaying
the resulting WAL from the empty state via `ApplyLWW` rebuilds exactly the
store's committed contents, key by key. -/
theorem wal_round_trip_C2 (ops : List Record) (h : ∀ r ∈ ops, r.key ≠ "")
    (k : String) : replayRecords (runPuts ops).wal k = (runPuts ops).m k := by
  rw [runPuts_eq_from]
  exact runPutsFrom_replay ops StoreSt.empty keysOk_empty h
    (fun k' => by simp [replayRecords, StoreSt.empty, StoreMap.empty]) k

/-- Witness for C2 at a concrete input: two writers racing on `"cat"` plus a
tombstone on `"dog"`; replaying the produced WAL rebuilds the store at every
key that was ever touched (and at an untouched key). -/
theorem wal_round_trip_C2_witness :
    (∀ r ∈ [Record.mk "cat" [1] 5 [1] false, Record.mk "cat" [2] 5 [2] false,
            Record.mk "dog" [] 7 [1] true, Record.mk "cat" [3] 4 [3] false],
        r.key ≠ "") ∧
      (let st := runPuts [Record.mk "cat" [1] 5 [1] false,
        Record.mk "cat" [2] 5 [2] false, Record.mk "dog" [] 7 [1] true,
        Record.mk "cat" [3] 4 [3] false]
       replayRecords st.wal "cat" = st.m "cat" ∧
         replayRecords st.wal "dog" = st.m "dog" ∧
         replayRecords st.wal "mouse" = st.m "mouse") :=
  ⟨by decide,
   ⟨wal_round_trip_C2 _ (by decide) "cat", wal_round_trip_C2 _ (by decide) "dog",
    wal_round_trip_C2 _ (by decide) "mouse"⟩⟩

/-- Witness for C1 at a concrete input: three version-distinct writes to
`"cat"` applied in a permuted order converge to the `<v`-maximum
(`ts = 2`, writer byte list `[2]`). -/
theorem lww_convergence_C1_witness :
    (([Record.mk "cat" [1] 1 [1] false, Record.mk "cat" [2] 2 [1] false,
       Record.mk "cat" [3] 2 [2] true] : List Record).Perm
        [Record.mk "cat" [3] 2 [2] true, Record.mk "cat" [1] 1 [1] false,
         Record.mk "cat" [2] 2 [1] false] ∧
      ([Record.mk "cat" [1] 1 [1] false, Record.mk "cat" [2] 2 [1] false,
        Record.mk "cat" [3] 2 [2] true] : List Record) ≠ [] ∧
      (∀ r ∈ ([Record.mk "cat" [1] 1 [1] false, Record.mk "cat" [2] 2 [1] false,
        Record.mk "cat" [3] 2 [2] true] : List Record), r.key = "cat") ∧
      ([Record.mk "cat" [1] 1 [1] false, Record.mk "cat" [2] 2 [1] false,
        Record.mk "cat" [3] 2 [2] true] : List Record).Pairwise
          (fun a b => ¬ sameVersion a b)) ∧
    (∃ w, IsVMax w [Record.mk "cat" [1] 1 [1] false,
        Record.mk "cat" [2] 2 [1] false, Record.mk "cat" [3] 2 [2] true] ∧
      (∀ w', IsVMax w' [Record.mk "cat" [1] 1 [1] false,
        Record.mk "cat" [2] 2 [1] false, Record.mk "cat" [3] 2 [2] true] → w' = w) ∧
      (runPuts [Record.mk "cat" [3] 2 [2] true, Record.mk "cat" [1] 1 [1] false,
        Record.mk "cat" [2] 2 [1] false]).m "cat" = some w) :=
  ⟨⟨by decide, by decide, by decide, by decide⟩,
   lww_convergence_C1 "cat" _ _ (by decide) (by decide) (by decide) (by decide)⟩

/-! ### Claim C3: WAL append failure during `PutLWW` -/

/-- Claim C3, behaviour of the code at the failing input: `PutLWW` discards
the `WAL.Append` error (`_ = s.wal.Append(rec)`), so when the append fails
(`appendOk = false`) on a fresh key, the in-memory map is still mutated, the
WAL is left without the record, and the call still returns the incoming
record as the accepted winner — the mutation is acknowledged.  This
contradicts the claim that a failed append leaves the store unchanged /
unacknowledged (the spec's stated intent), so the code, not the claim, is
at fault. -/
theorem wal_append_failure_C3 (s : StoreSt) (rec : Record)
    (h : s.m rec.key = none) :
    (putLWWg false s rec).1.m rec.key = some rec ∧
      (putLWWg false s rec).1.wal = s.wal ∧
      (putLWWg false s rec).2 = rec := by
  rw [putLWWg_none_eq' false s rec h]
  exact ⟨StoreMap.insert_same s.m rec.key rec, rfl, rfl⟩

/-- Witness for C3: a concrete write to an empty store whose WAL append
fails is still applied and acknowledged. -/
theorem wal_append_failure_C3_witness :
    StoreSt.empty.m (Record.mk "p1" [7] 1 [1] false).key = none ∧
      ((putLWWg false StoreSt.empty (Record.mk "p1" [7] 1 [1] false)).1.m
          (Record.mk "p1" [7] 1 [1] false).key =
        some (Record.mk "p1" [7] 1 [1] false) ∧
      (putLWWg false StoreSt.empty (Record.mk "p1" [7] 1 [1] false)).1.wal =
        StoreSt.empty.wal ∧
      (putLWWg false StoreSt.empty (Record.mk "p1" [7] 1 [1] false)).2 =
        Record.mk "p1" [7] 1 [1] false) :=
  ⟨rfl, wal_append_failure_C3 StoreSt.empty _ rfl⟩

/-! ### Claim C6: timestamp-collision semantics of `PutLWW` -/

def c6cur : Record := ⟨"k", [1], 5, [9], false⟩

def c6rec : Record := ⟨"k", [2], 5, [9], false⟩

def c6store : StoreSt := ⟨StoreMap.empty.insert "k" c6cur, [c6cur]⟩

/-- Counterexample to C6 as stated: `c6rec` collides with the stored
`c6cur` in `(ts, writer_id)` but differs in `value`; the claim says the
incoming record wins the tie-break, but `Newer(cur, rec)` is called with
the current record first, so `a.WriterID >= b.WriterID` keeps the existing
record: the store still holds `c6cur` and the incoming `c6rec` is
discarded (the operation is even a WAL no-op). -/
theorem ts_collision_C6_counterexample :
    (putLWW c6store c6rec).2 = c6cur ∧
      (putLWW c6store c6rec).2 ≠ c6rec ∧
      (putLWW c6store c6rec).1.m "k" = some c6cur ∧
      (putLWW c6store c6rec).1.m "k" ≠ some c6rec ∧
      (putLWW c6store c6rec).1.wal = [c6cur] := by
  decide

/-- Claim C6 as amended: a write whose `ts` collides with a prior write by
the same writer on the same key is a no-op when `value` and `deleted` also
match; otherwise it is still a no-op — store and WAL unchanged, the call
returns the existing record — because the deterministic `>=` tie-break is
evaluated with the current record as first argument, so the existing record
(not the incoming one) wins. -/
theorem ts_collision_C6 (s : StoreSt) (rec cur : Record)
    (h : s.m rec.key = some cur) (hts : cur.ts = rec.ts)
    (hw : cur.writerID = rec.writerID) :
    putLWW s rec = (s, cur) := by
  apply putLWWg_some_noop' true s rec cur h
  have hn : Newer cur rec = cur := newer_of_sameVersion ⟨hts, hw⟩
  unfold noopCond
  rw [hn]
  exact ⟨rfl, rfl, rfl, rfl⟩

/-- Witness for the amended C6: the concrete collision from the
counterexample is a complete no-op returning the stored record. -/
theorem ts_collision_C6_witness :
    (c6store.m c6rec.key = some c6cur ∧ c6cur.ts = c6rec.ts ∧
      c6cur.writerID = c6rec.writerID) ∧
      putLWW c6store c6rec = (c6store, c6cur) :=
  ⟨⟨by decide, by decide, by decide⟩,
   ts_collision_C6 c6store c6rec c6cur (by decide) (by decide) (by decide)⟩

/-! ### Claim C10: every stored record was an input -/

/-- A sequence of `PutLWW` (flag `true`) and `ApplyLWW` (flag `false`)
calls, from an arbitrary starting state. -/
def runMixedFrom (s : StoreSt) (ops : List (Bool × Record)) : StoreSt :=
  ops.foldl
    (fun s op => if op.1 then (putLWW s op.2).1 else ⟨(applyLWW s.m op.2).1, s.wal⟩) s

def runMixed (ops : List (Bool × Record)) : StoreSt :=
  runMixedFrom StoreSt.empty ops

theorem putLWWg_stored_from {ok : Bool} {s : StoreSt} {rec : Record}
    {k : String} {r : Record} (h : (putLWWg ok s rec).1.m k = some r) :
    r = rec ∨ s.m k = some r := by
  by_cases hk : k = rec.key
  · subst hk
    cases hcur : s.m rec.key with
    | none =>
      rw [putLWWg_none_eq' ok s rec hcur] at h
      dsimp only at h
      rw [StoreMap.insert_same] at h
      exact Or.inl (Option.some_injective _ h).symm
    | some cur =>
      by_cases hc : noopCond cur rec
      · rw [putLWWg_some_noop' ok s rec cur hcur hc] at h
        dsimp only at h
        exact Or.inr (hcur.symm.trans h)
      · rw [putLWWg_some_change' ok s rec cur hcur hc] at h
        dsimp only at h
        rw [StoreMap.insert_same] at h
        rcases newer_eq_or cur rec with hn | hn <;> rw [hn] at h
        · exact Or.inr h
        · exact Or.inl (Option.some_injective _ h).symm
  · rw [putLWWg_m_other ok s rec hk] at h
    exact Or.inr h

theorem applyLWW_stored_from {m : StoreMap} {rec : Record} {k : String}
    {r : Record} (h : (applyLWW m rec).1 k = some r) :
    r = rec ∨ m k = some r := by
  by_cases hk : k = rec.key
  · subst hk
    cases hcur : m rec.key with
    | none =>
      rw [applyLWW_eq_none _ _ hcur] at h
      dsimp only at h
      rw [StoreMap.insert_same] at h
      exact Or.inl (Option.some_injective _ h).symm
    | some cur =>
      rw [applyLWW_eq_some _ _ _ hcur] at h
      dsimp only at h
      rw [StoreMap.insert_same] at h
      rcases newer_eq_or cur rec with hn | hn <;> rw [hn] at h
      · exact Or.inr h
      · exact Or.inl (Option.some_injective _ h).symm
  · cases hcur : m rec.key with
    | none =>
      rw [applyLWW_eq_none _ _ hcur] at h
      dsimp only at h
      rw [StoreMap.insert_other _ _ hk] at h
      exact Or.inr h
    | some cur =>
      rw [applyLWW_eq_some _ _ _ hcur] at h
      dsimp only at h
      rw [StoreMap.insert_other _ _ hk] at h
      exact Or.inr h

theorem applyLWW_keysOk (m : StoreMap) (rec : Record) (h : KeysOk m) :
    KeysOk (applyLWW m rec).1 := by
  intro k r hr
  by_cases hk : k = rec.key
  · subst hk
    cases hcur : m rec.key with
    | none =>
      rw [applyLWW_eq_none _ _ hcur] at hr
      dsimp only at hr
      rw [StoreMap.insert_same] at hr
      cases hr; rfl
    | some cur =>
      rw [applyLWW_eq_some _ _ _ hcur] at hr
      dsimp only at hr
      rw [StoreMap.insert_same] at hr
      cases hr
      rcases newer_eq_or cur rec with hn | hn <;> rw [hn]
      exact h _ _ hcur
  · unfold applyLWW at hr
    cases hcur : m rec.key with
    | none =>
      rw [hcur] at hr
      dsimp only at hr
      rw [StoreMap.insert_other _ _ hk] at hr
      exact h _ _ hr
    | some cur =>
      rw [hcur] at hr
      dsimp only at hr
      rw [StoreMap.insert_other _ _ hk] at hr
      exact h _ _ hr

theorem runMixedFrom_stored (ops : List (Bool × Record)) :
    ∀ (s : StoreSt) (k : String) (r : Record),
      (runMixedFrom s ops).m k = some r →
      r ∈ ops.map (·.2) ∨ s.m k = some r := by
  induction ops with
  | nil => intro s k r h; exact Or.inr h
  | cons op t ih =>
    intro s k r h
    simp only [runMixedFrom, List.foldl_cons] at h
    by_cases hop : op.1
    · rw [if_pos hop] at h
      rcases ih _ _ _ h with hmem | hbase
      · exact Or.inl (List.mem_cons_of_mem _ hmem)
      · rcases putLWWg_stored_from hbase with heq | hold
        · exact Or.inl (heq ▸ List.mem_cons_self _ _)
        · exact Or.inr hold
    · rw [if_neg hop] at h
      rcases ih _ _ _ h with hmem | hbase
      · exact Or.inl (List.mem_cons_of_mem _ hmem)
      · rcases applyLWW_stored_from hbase with heq | hold
        · exact Or.inl (heq ▸ List.mem_cons_self _ _)
        · exact Or.inr hold

theorem runMixedFrom_keysOk (ops : List (Bool × Record)) :
    ∀ (s : StoreSt), KeysOk s.m → KeysOk (runMixedFrom s ops).m := by
  induction ops with
  | nil => intro s h; exact h
  | cons op t ih =>
    intro s h
    simp only [runMixedFrom, List.foldl_cons]
    by_cases hop : op.1
    · rw [if_pos hop]
      exact ih _ (putLWWg_keysOk true s op.2 h)
    · rw [if_neg hop]
      exact ih _ (applyLWW_keysOk s.m op.2 h)

/-- Claim C10: `Newer` always returns one of its two arguments unchanged,
and consequently, after any sequence of `PutLWW` / `ApplyLWW` calls from the
empty store, every record held for a key is one of the records that was
passed in, and was passed in for that very key. -/
theorem newer_returns_argument_C10 (a b : Record) (ops : List (Bool × Record))
    (k : String) (r : Record) (h : (runMixed ops).m k = some r) :
    (Newer a b = a ∨ Newer a b = b) ∧ r ∈ ops.map (·.2) ∧ r.key = k := by
  refine ⟨newer_eq_or a b, ?_, ?_⟩
  · rcases runMixedFrom_stored ops StoreSt.empty k r h with hmem | hbase
    · exact hmem
    · exact absurd hbase (by simp [StoreSt.empty, StoreMap.empty])
  · exact runMixedFrom_keysOk ops StoreSt.empty keysOk_empty k r h

/-- Witness for C10: a concrete mixed `PutLWW`/`ApplyLWW` run; the record
found at `"cat"` is one of the inputs, stored at its own key. -/
theorem newer_returns_argument_C10_witness :
    (runMixed [(true, Record.mk "cat" [1] 1 [1] false),
        (false, Record.mk "cat" [2] 2 [2] false),
        (true, Record.mk "dog" [3] 1 [1] false)]).m "cat" =
      some (Record.mk "cat" [2] 2 [2] false) ∧
      ((Newer (Record.mk "cat" [1] 1 [1] false) (Record.mk "cat" [2] 2 [2] false) =
          Record.mk "cat" [1] 1 [1] false ∨
        Newer (Record.mk "cat" [1] 1 [1] false) (Record.mk "cat" [2] 2 [2] false) =
          Record.mk "cat" [2] 2 [2] false) ∧
      Record.mk "cat" [2] 2 [2] false ∈
        ([(true, Record.mk "cat" [1] 1 [1] false),
          (false, Record.mk "cat" [2] 2 [2] false),
          (true, Record.mk "dog" [3] 1 [1] false)].map (·.2)) ∧
      (Record.mk "cat" [2] 2 [2] false).key = "cat") :=
  ⟨by decide,
   newer_returns_argument_C10 (Record.mk "cat" [1] 1 [1] false)
     (Record.mk "cat" [2] 2 [2] false) _ "cat" _ (by decide)⟩

/-! ### Claim C5: WAL replay and truncated trailing lines -/

/-- One line of the kv WAL file as `bufio.Scanner` yields it: a decodable
JSON record, an empty line, or an undecodable line (e.g. the truncated tail
left by a crash mid-append; `json.Unmarshal` fails on it). -/
inductive WalLine where
  | record (r : Record)
  | empty
  | junk
deriving DecidableEq, Repr

/-- `WAL.Replay` from the WAL source file, run over the scanned lines:
empty lines are skipped, an undecodable line makes `Replay` return the
decode error immediately, records with empty key are skipped, every other
record is passed to `apply`.  Returns the records applied, in order, and
whether replay finished without error. -/
def walReplay : List WalLine → List Record × Bool
  | [] => ([], true)
  | .empty :: rest => walReplay rest
  | .junk :: _ => ([], false)
  | .record r :: rest =>
    if r.key = "" then walReplay rest
    else (r :: (walReplay rest).1, (walReplay rest).2)

/-- The records a clean (junk-free) line list decodes to, empty keys skipped. -/
def walRecords : List WalLine → List Record
  | [] => []
  | .record r :: rest => if r.key = "" then walRecords rest else r :: walRecords rest
  | _ :: rest => walRecords rest

/-- Counterexample to C5 as stated: a WAL with one good record followed by
a truncated (undecodable) trailing line.  `Replay` applies the good prefix
but then returns the `json.Unmarshal` error — the truncated line fails the
replay (and `main.go` exits via `log.Fatalf("replay kv wal: ...")`) instead
of being ignored. -/
theorem wal_replay_tolerance_C5_counterexample :
    walReplay [WalLine.record (Record.mk "cat" [1] 1 [1] false), WalLine.junk] =
      ([Record.mk "cat" [1] 1 [1] false], false) ∧
      (walReplay [WalLine.record (Record.mk "cat" [1] 1 [1] false),
          WalLine.junk]).2 ≠ true := by
  decide

/-- Claim C5 as amended: replay reads the lines from the start, skips empty
lines and records with empty key, and applies each remaining decoded record
in order; on a well-formed WAL it succeeds, but a trailing partial
(truncated, hence undecodable) line makes the replay fail with the decode
error after the preceding records have been applied — it is not ignored. -/
theorem wal_replay_tolerance_C5 (lines : List WalLine)
    (h : WalLine.junk ∉ lines) :
    walReplay lines = (walRecords lines, true) ∧
      walReplay (lines ++ [WalLine.junk]) = (walRecords lines, false) := by
  induction lines with
  | nil => exact ⟨rfl, rfl⟩
  | cons l rest ih =>
    have hl : l ≠ WalLine.junk := fun hh => h (hh ▸ List.mem_cons_self _ _)
    have hrest : WalLine.junk ∉ rest := fun hh => h (List.mem_cons_of_mem _ hh)
    rcases ih hrest with ⟨ih1, ih2⟩
    cases l with
    | junk => exact absurd rfl hl
    | empty =>
      exact ⟨ih1, ih2⟩
    | record r =>
      by_cases hk : r.key = ""
      · simpa [walReplay, walRecords, hk] using ⟨ih1, ih2⟩
      · constructor
        · simp [walReplay, walRecords, hk, ih1]
        · simp only [List.cons_append]
          simp [walReplay, walRecords, hk, ih2]

/-- Witness for the amended C5: a concrete two-record WAL replays cleanly,
and the same WAL with a truncated trailing line applies both records but
reports failure. -/
theorem wal_replay_tolerance_C5_witness :
    WalLine.junk ∉ [WalLine.record (Record.mk "cat" [1] 1 [1] false),
        WalLine.empty, WalLine.record (Record.mk "dog" [2] 2 [2] true)] ∧
      (walReplay [WalLine.record (Record.mk "cat" [1] 1 [1] false),
          WalLine.empty, WalLine.record (Record.mk "dog" [2] 2 [2] true)] =
        (walRecords [WalLine.record (Record.mk "cat" [1] 1 [1] false),
          WalLine.empty, WalLine.record (Record.mk "dog" [2] 2 [2] true)], true) ∧
      walReplay ([WalLine.record (Record.mk "cat" [1] 1 [1] false),
          WalLine.empty, WalLine.record (Record.mk "dog" [2] 2 [2] true)] ++
            [WalLine.junk]) =
        (walRecords [WalLine.record (Record.mk "cat" [1] 1 [1] false),
          WalLine.empty, WalLine.record (Record.mk "dog" [2] 2 [2] true)], false)) :=
  ⟨by decide, wal_replay_tolerance_C5 _ (by decide)⟩

/-! ### Claim C9: the hint manager -/

/-- `Manager.m` from `internal/hints/hints.go`: target id → key → hint. -/
def HintMap : Type := String → String → Option Record

def HintMap.empty : HintMap := fun _ _ => none

def HintMap.insert (m : HintMap) (t k : String) (r : Record) : HintMap :=
  fun t' k' => if t' = t ∧ k' = k then some r else m t' k'

theorem HintMap.insert_pair_same (m : HintMap) (t k : String) (r : Record) :
    m.insert t k r t k = some r := by
  simp [HintMap.insert]

theorem HintMap.insert_pair_other (m : HintMap) {t k t' k' : String} (r : Record)
    (h : ¬ (t' = t ∧ k' = k)) : m.insert t k r t' k' = m t' k' := by
  simp only [HintMap.insert, if_neg h]

/-- `addLocked`: merge `rec` into the hints for `(targetID, rec.Key)`;
the stored hint is replaced only when the LWW winner differs from the
current hint in `(ts, writer_id)`; returns whether it changed. -/
def addLocked (m : HintMap) (t : String) (rec : Record) : HintMap × Bool :=
  match m t rec.key with
  | none => (m.insert t rec.key rec, true)
  | some cur =>
    if (Newer cur rec).ts ≠ cur.ts ∨ (Newer cur rec).writerID ≠ cur.writerID then
      (m.insert t rec.key (Newer cur rec), true)
    else (m, false)

/-- Hint-manager state: the in-memory map plus the `add` entries appended to
the hint WAL (`{op:"add", target, record}`), in append order. -/
structure HintSt where
  m : HintMap
  wal : List (String × Record)

def HintSt.empty : HintSt := ⟨HintMap.empty, []⟩

/-- `Manager.Add`: ignore empty target or key; merge under the lock; append
a WAL `add` entry only when the stored hint changed. -/
def hintAdd (s : HintSt) (t : String) (rec : Record) : HintSt :=
  if t = "" ∨ rec.key = "" then s
  else
    ⟨(addLocked s.m t rec).1,
     if (addLocked s.m t rec).2 then s.wal ++ [(t, rec)] else s.wal⟩

def runHintAddsFrom (s : HintSt) (ops : List (String × Record)) : HintSt :=
  ops.foldl (fun s op => hintAdd s op.1 op.2) s

def runHintAdds (ops : List (String × Record)) : HintSt :=
  runHintAddsFrom HintSt.empty ops

/-- `Manager.replay` over `add` entries: `addNoWAL` = guard + `addLocked`. -/
def hintReplay (entries : List (String × Record)) : HintMap :=
  entries.foldl
    (fun m e => if e.1 = "" ∨ e.2.key = "" then m else (addLocked m e.1 e.2).1)
    HintMap.empty

/-- The records that `Add` accepts for the pair `(t, k)`, in call order. -/
def recordsFor (t k : String) : List (String × Record) → List Record
  | [] => []
  | op :: rest =>
    if op.1 = t ∧ op.2.key = k ∧ ¬ (op.1 = "" ∨ op.2.key = "") then
      op.2 :: recordsFor t k rest
    else recordsFor t k rest

/-- If the stored hint's `(ts, writer_id)` does not change, the winner is the
stored hint itself. -/
theorem hint_unchanged_winner {cur rec : Record}
    (h : ¬ ((Newer cur rec).ts ≠ cur.ts ∨ (Newer cur rec).writerID ≠ cur.writerID)) :
    Newer cur rec = cur := by
  push_neg at h
  by_cases hne : Newer cur rec = cur
  · exact hne
  · rcases newer_ne_left hne with ⟨he, hl⟩
    rw [he] at h
    exact absurd hl (not_ltv_of_sameVersion (sameVersion_symm ⟨h.1, h.2⟩))

theorem addLocked_at_pair (m : HintMap) (t : String) (rec : Record) :
    (addLocked m t rec).1 t rec.key =
      some (match m t rec.key with | none => rec | some cur => Newer cur rec) := by
  unfold addLocked
  cases hcur : m t rec.key with
  | none =>
    exact HintMap.insert_pair_same m t rec.key rec
  | some cur =>
    dsimp only
    split
    · exact HintMap.insert_pair_same m t rec.key _
    · rename_i hcond
      show m t rec.key = some (Newer cur rec)
      rw [hcur, hint_unchanged_winner hcond]

theorem addLocked_other (m : HintMap) (t : String) (rec : Record)
    {t' k' : String} (h : ¬ (t' = t ∧ k' = rec.key)) :
    (addLocked m t rec).1 t' k' = m t' k' := by
  unfold addLocked
  cases hcur : m t rec.key with
  | none => exact HintMap.insert_pair_other m _ h
  | some cur =>
    dsimp only
    split
    · exact HintMap.insert_pair_other m _ h
    · rfl

def hintStep (c : Option Record) (r : Record) : Option Record :=
  some (match c with | none => r | some cur => Newer cur r)

theorem foldl_hintStep_some (l : List Record) :
    ∀ c : Record, l.foldl hintStep (some c) = some (l.foldl Newer c) := by
  induction l with
  | nil => intro c; rfl
  | cons x xs ih => intro c; exact ih (Newer c x)

/-- Folding `Add` calls accumulates, per pair, a `Newer`-fold over the
accepted records. -/
theorem runHintAddsFrom_at (ops : List (String × Record)) :
    ∀ (s : HintSt) (t k : String),
      (runHintAddsFrom s ops).m t k =
        (recordsFor t k ops).foldl hintStep (s.m t k) := by
  induction ops with
  | nil => intro s t k; rfl
  | cons op rest ih =>
    intro s t k
    simp only [runHintAddsFrom, List.foldl_cons, recordsFor]
    by_cases hsel : op.1 = t ∧ op.2.key = k ∧ ¬ (op.1 = "" ∨ op.2.key = "")
    · rw [if_pos hsel]
      rcases hsel with ⟨ht, hk, hguard⟩
      have hstep : (hintAdd s op.1 op.2).m t k = hintStep (s.m t k) op.2 := by
        unfold hintAdd
        rw [if_neg hguard]
        dsimp only
        have := addLocked_at_pair s.m op.1 op.2
        rw [ht, hk] at this
        rw [ht, this]
        rfl
      have := ih (hintAdd s op.1 op.2) t k
      simp only [runHintAddsFrom] at this
      rw [this, hstep, List.foldl_cons]
    · rw [if_neg hsel]
      have hstep : (hintAdd s op.1 op.2).m t k = s.m t k := by
        unfold hintAdd
        by_cases hguard : op.1 = "" ∨ op.2.key = ""
        · rw [if_pos hguard]
        · rw [if_neg hguard]
          dsimp only
          apply addLocked_other
          intro hpair
          exact hsel ⟨hpair.1.symm, hpair.2.symm, hguard⟩
      have := ih (hintAdd s op.1 op.2) t k
      simp only [runHintAddsFrom] at this
      rw [this, hstep]

/-- Replaying the hint WAL reproduces the in-memory map, step by step. -/
theorem runHintAddsFrom_replay (ops : List (String × Record)) :
    ∀ (s : HintSt), hintReplay s.wal = s.m →
      hintReplay (runHintAddsFrom s ops).wal = (runHintAddsFrom s ops).m := by
  induction ops with
  | nil => intro s h; exact h
  | cons op rest ih =>
    intro s h
    simp only [runHintAddsFrom, List.foldl_cons]
    apply ih
    unfold hintAdd
    by_cases hguard : op.1 = "" ∨ op.2.key = ""
    · rw [if_pos hguard]
      exact h
    · rw [if_neg hguard]
      dsimp only
      cases hch : (addLocked s.m op.1 op.2).2 with
      | false =>
        rw [if_neg (by simp [hch])]
        rw [h]
        unfold addLocked at hch ⊢
        cases hcur : s.m op.1 op.2.key with
        | none =>
          rw [hcur] at hch
          simp at hch
        | some cur =>
          rw [hcur] at hch
          dsimp only at hch ⊢
          split at hch
          · simp at hch
          · rename_i hcond
            rw [if_neg hcond]
      | true =>
        rw [if_pos (by simp [hch])]
        unfold hintReplay
        rw [List.foldl_append]
        have hbase : hintReplay s.wal = s.m := h
        unfold hintReplay at hbase
        rw [hbase]
        simp only [List.foldl_cons, List.foldl_nil]
        rw [if_neg hguard]

/-- A second identical `Add` is a complete no-op on the manager state. -/
theorem hintAdd_idem (s : HintSt) (t : String) (r : Record) :
    hintAdd (hintAdd s t r) t r = hintAdd s t r := by
  by_cases hguard : t = "" ∨ r.key = ""
  · unfold hintAdd
    rw [if_pos hguard, if_pos hguard]
  · have hval : (hintAdd s t r).m t r.key = some r ∨
        ((hintAdd s t r).m = s.m ∧ (hintAdd s t r).wal = s.wal) := by
      unfold hintAdd
      rw [if_neg hguard]
      dsimp only
      unfold addLocked
      cases hcur : s.m t r.key with
      | none =>
        dsimp only
        exact Or.inl (HintMap.insert_pair_same s.m t r.key r)
      | some cur =>
        dsimp only
        split
        · rename_i hcond
          left
          have hne : Newer cur r ≠ cur := by
            intro hh
            rw [hh] at hcond
            rcases hcond with hc | hc <;> exact hc rfl
          rcases newer_ne_left hne with ⟨he, _⟩
          show s.m.insert t r.key (Newer cur r) t r.key = some r
          rw [HintMap.insert_pair_same, he]
        · exact Or.inr ⟨rfl, rfl⟩
    rcases hval with hval | ⟨hm, hw⟩
    · revert hval
      generalize hintAdd s t r = s1
      intro hval
      have hstep : addLocked s1.m t r = (s1.m, false) := by
        unfold addLocked
        rw [hval]
        dsimp only
        rw [newer_self]
        rw [if_neg (by simp)]
      unfold hintAdd
      rw [if_neg hguard, hstep]
      dsimp only
      rw [if_neg (by simp)]
    · have hs : hintAdd s t r = s := by
        cases s with
        | mk m w =>
          cases hstate : hintAdd ⟨m, w⟩ t r with
          | mk m' w' =>
            simp only [hstate] at hm hw
            rw [hm, hw]
      rw [hs]
      exact hs

/-- Claim C9 (hint manager invariant and replay idempotence): after any
sequence of `Add` operations from a fresh manager, (i) the hint held for a
pair `(t, k)` — the map holds at most one per pair by construction — is the
unique `<v`-maximum of all version-distinct hints accepted for that pair,
(ii) replaying the hint WAL rebuilds exactly the in-memory map, and (iii)
appending the same `Add` twice leaves the same state as appending it once. -/
theorem hint_manager_C9 (ops : List (String × Record)) (t k : String)
    (hne : recordsFor t k ops ≠ [])
    (hdist : (recordsFor t k ops).Pairwise (fun a b => ¬ sameVersion a b)) :
    (∃ w, (runHintAdds ops).m t k = some w ∧ IsVMax w (recordsFor t k ops) ∧
      ∀ w', IsVMax w' (recordsFor t k ops) → w' = w) ∧
      (∀ t' k', hintReplay (runHintAdds ops).wal t' k' = (runHintAdds ops).m t' k') ∧
      (∀ (a : String × Record) t' k',
        (runHintAdds (ops ++ [a, a])).m t' k' =
          (runHintAdds (ops ++ [a])).m t' k') := by
  refine ⟨?_, ?_, ?_⟩
  · match hrec : recordsFor t k ops with
    | [] => exact absurd hrec hne
    | r :: rest =>
      refine ⟨rest.foldl Newer r, ?_, ?_, ?_⟩
      · have h1 := runHintAddsFrom_at ops HintSt.empty t k
        rw [hrec] at h1
        show (runHintAddsFrom HintSt.empty ops).m t k = some (rest.foldl Newer r)
        rw [h1, List.foldl_cons]
        exact foldl_hintStep_some rest r
      · exact hrec ▸ foldl_newer_isVMax rest r (hrec ▸ hdist)
      · intro w' hw'
        exact isVMax_unique (hrec ▸ foldl_newer_isVMax rest r (hrec ▸ hdist)) (hrec ▸ hw')
  · intro t' k'
    have h2 := runHintAddsFrom_replay ops HintSt.empty rfl
    show hintReplay (runHintAddsFrom HintSt.empty ops).wal t' k' =
      (runHintAddsFrom HintSt.empty ops).m t' k'
    rw [h2]
  · intro a t' k'
    simp only [runHintAdds, runHintAddsFrom, List.foldl_append, List.foldl_cons,
      List.foldl_nil]
    rw [hintAdd_idem]

/-- Witness for C9: two version-distinct hints for target `"n2"` on key
`"cat"`, plus a hint for another target; the stored hint is the `<v`-max,
replay rebuilds the map, and double-adding is idempotent. -/
theorem hint_manager_C9_witness :
    (recordsFor "n2" "cat"
        [("n2", Record.mk "cat" [1] 1 [1] false),
         ("n3", Record.mk "cat" [9] 9 [9] false),
         ("n2", Record.mk "cat" [2] 2 [2] false)] ≠ [] ∧
      (recordsFor "n2" "cat"
        [("n2", Record.mk "cat" [1] 1 [1] false),
         ("n3", Record.mk "cat" [9] 9 [9] false),
         ("n2", Record.mk "cat" [2] 2 [2] false)]).Pairwise
          (fun a b => ¬ sameVersion a b)) ∧
      ((∃ w, (runHintAdds
        [("n2", Record.mk "cat" [1] 1 [1] false),
         ("n3", Record.mk "cat" [9] 9 [9] false),
         ("n2", Record.mk "cat" [2] 2 [2] false)]).m "n2" "cat" = some w ∧
        IsVMax w (recordsFor "n2" "cat"
          [("n2", Record.mk "cat" [1] 1 [1] false),
           ("n3", Record.mk "cat" [9] 9 [9] false),
           ("n2", Record.mk "cat" [2] 2 [2] false)]) ∧
        ∀ w', IsVMax w' (recordsFor "n2" "cat"
          [("n2", Record.mk "cat" [1] 1 [1] false),
           ("n3", Record.mk "cat" [9] 9 [9] false),
           ("n2", Record.mk "cat" [2] 2 [2] false)]) → w' = w) ∧
      (∀ t' k', hintReplay (runHintAdds
        [("n2", Record.mk "cat" [1] 1 [1] false),
         ("n3", Record.mk "cat" [9] 9 [9] false),
         ("n2", Record.mk "cat" [2] 2 [2] false)]).wal t' k' =
        (runHintAdds
        [("n2", Record.mk "cat" [1] 1 [1] false),
         ("n3", Record.mk "cat" [9] 9 [9] false),
         ("n2", Record.mk "cat" [2] 2 [2] false)]).m t' k') ∧
      (∀ (a : String × Record) t' k',
        (runHintAdds ([("n2", Record.mk "cat" [1] 1 [1] false),
         ("n3", Record.mk "cat" [9] 9 [9] false),
         ("n2", Record.mk "cat" [2] 2 [2] false)] ++ [a, a])).m t' k' =
          (runHintAdds ([("n2", Record.mk "cat" [1] 1 [1] false),
           ("n3", Record.mk "cat" [9] 9 [9] false),
           ("n2", Record.mk "cat" [2] 2 [2] false)] ++ [a])).m t' k')) :=
  ⟨⟨by decide, by decide⟩, hint_manager_C9 _ "n2" "cat" (by decide) (by decide)⟩

/-! ### The consistent-hash ring -/

/-- `types.NodeInfo`. -/
structure NodeInfo where
  id : String
  addr : String
deriving DecidableEq, Repr

/-- `ring.VNode`. -/
structure VNode where
  token : Nat
  node : NodeInfo
  vindex : Nat
deriving DecidableEq, Repr

structure Ring where
  vnodes : List VNode
deriving DecidableEq, Repr

/-- FNV-1a 64 over a byte list, big-endian read of the digest — which is the
running state itself, reduced mod `2 ^ 64` at each multiply as the Go `uint64`
arithmetic wraps. -/
def fnv64 (bytes : List Nat) : Nat :=
  bytes.foldl (fun h b => ((h ^^^ b) * 1099511628211) % (2 ^ 64))
    14695981039346656037

/-- `hash64` from the ring source: FNV-1a 64 of the UTF-8 bytes. -/
def hash64 (s : String) : Nat :=
  fnv64 (s.toUTF8.toList.map (fun b => b.toNat))

/-- `ring.New`: `v` vnodes per node with tokens `H(id ++ "#" ++ i)`, sorted
by token ascending (Go `sort.Slice`; equal tokens in unspecified order). -/
def ringNew (nodes : List NodeInfo) (v : Nat) : Ring :=
  ⟨(nodes.flatMap (fun n =>
      (List.range v).map
        (fun i => VNode.mk (hash64 (n.id ++ "#" ++ toString i)) n i))).mergeSort
      (fun a b => a.token ≤ b.token)⟩

/-- `Ring.search`: the smallest index whose vnode token is `≥ target`
(what `sort.Search` returns on the sorted token list), wrapping to 0 when
every token is smaller. -/
def ringSearch (r : Ring) (target : Nat) : Nat :=
  let i := r.vnodes.findIdx (fun vn => target ≤ vn.token)
  if i = r.vnodes.length then 0 else i

/-- The clockwise walk of `GetReplicas`: emit each vnode's node the first
time its id is seen (the Go `seen` map is modelled by the list of seen ids),
until `n` distinct nodes are collected or the vnodes are exhausted (one full
revolution). -/
def ringWalk (n : Nat) : List VNode → List String → List NodeInfo
  | [], _ => []
  | vn :: rest, seen =>
    if n = 0 then []
    else if vn.node.id ∈ seen then ringWalk n rest seen
    else vn.node :: ringWalk (n - 1) rest (vn.node.id :: seen)

/-- `Ring.GetReplicas`: start at `search(H(key))` and walk clockwise around
the ring (the rotation of the vnode list). -/
def getReplicas (r : Ring) (key : String) (n : Nat) : List NodeInfo :=
  if r.vnodes.isEmpty ∨ n = 0 then []
  else
    ringWalk n
      (r.vnodes.drop (ringSearch r (hash64 key)) ++
        r.vnodes.take (ringSearch r (hash64 key))) []

/-- The number of distinct node ids in `vs` not yet in `seen` — what a full
walk can still emit. -/
def distinctCount : List VNode → List String → Nat
  | [], _ => 0
  | vn :: rest, seen =>
    if vn.node.id ∈ seen then distinctCount rest seen
    else distinctCount rest (vn.node.id :: seen) + 1

theorem ringWalk_length (vs : List VNode) :
    ∀ (n : Nat) (seen : List String),
      (ringWalk n vs seen).length = min n (distinctCount vs seen) := by
  induction vs with
  | nil => intro n seen; simp [ringWalk, distinctCount]
  | cons vn rest ih =>
    intro n seen
    by_cases hn : n = 0
    · simp [ringWalk, hn]
    · by_cases hs : vn.node.id ∈ seen
      · simp only [ringWalk, if_neg hn, if_pos hs, distinctCount]
        exact ih n seen
      · simp only [ringWalk, if_neg hn, if_neg hs, distinctCount, List.length_cons]
        rw [ih (n - 1) (vn.node.id :: seen)]
        omega

theorem ringWalk_nodup (vs : List VNode) :
    ∀ (n : Nat) (seen : List String),
      ((ringWalk n vs seen).map (fun nd => nd.id)).Nodup ∧
        ∀ x ∈ (ringWalk n vs seen).map (fun nd => nd.id), x ∉ seen := by
  induction vs with
  | nil => intro n seen; simp [ringWalk]
  | cons vn rest ih =>
    intro n seen
    by_cases hn : n = 0
    · simp [ringWalk, hn]
    · by_cases hs : vn.node.id ∈ seen
      · simpa only [ringWalk, if_neg hn, if_pos hs] using ih n seen
      · simp only [ringWalk, if_neg hn, if_neg hs, List.map_cons]
        rcases ih (n - 1) (vn.node.id :: seen) with ⟨hnd, hseen⟩
        constructor
        · refine List.nodup_cons.mpr ⟨?_, hnd⟩
          intro hmem
          exact hseen _ hmem (List.mem_cons_self _ _)
        · intro x hx
          rcases List.mem_cons.mp hx with h1 | hx'
          · exact h1 ▸ hs
          · exact fun hh => hseen x hx' (List.mem_cons_of_mem _ hh)

/-- `distinctCount` counts the id set minus the seen set. -/
theorem distinctCount_toFinset (vs : List VNode) :
    ∀ seen : List String,
      distinctCount vs seen =
        ((vs.map (fun vn => vn.node.id)).toFinset \ seen.toFinset).card := by
  induction vs with
  | nil => intro seen; simp [distinctCount]
  | cons vn rest ih =>
    intro seen
    by_cases hs : vn.node.id ∈ seen
    · simp only [distinctCount, if_pos hs, List.map_cons, List.toFinset_cons]
      rw [ih seen]
      congr 1
      ext x
      by_cases hxv : x = vn.node.id
      · subst hxv
        simp [List.mem_toFinset, hs]
      · simp [hxv]
    · simp only [distinctCount, if_neg hs, List.map_cons, List.toFinset_cons]
      rw [ih (vn.node.id :: seen)]
      have hsplit :
          insert vn.node.id (rest.map (fun v => v.node.id)).toFinset \ seen.toFinset =
            insert vn.node.id
              ((rest.map (fun v => v.node.id)).toFinset \
                (vn.node.id :: seen).toFinset) := by
        ext x
        by_cases hxv : x = vn.node.id
        · subst hxv
          simp [List.mem_toFinset, hs]
        · simp [List.mem_toFinset, hxv]
      rw [hsplit, Finset.card_insert_of_not_mem (by simp)]

theorem toFinset_of_perm {α : Type} [DecidableEq α] {l l' : List α}
    (h : l.Perm l') : l.toFinset = l'.toFinset := by
  ext x
  simp only [List.mem_toFinset]
  exact h.mem_iff

/-- The ids occurring among the freshly built vnodes are exactly the ids of
the configured nodes (each node contributes `v ≥ 1` vnodes). -/
theorem ringNew_ids_toFinset (nodes : List NodeInfo) (v : Nat) (hv : 1 ≤ v) :
    (((nodes.flatMap (fun nd =>
        (List.range v).map
          (fun i => VNode.mk (hash64 (nd.id ++ "#" ++ toString i)) nd i))).map
        (fun vn => vn.node.id)).toFinset) =
      (nodes.map (fun nd => nd.id)).toFinset := by
  induction nodes with
  | nil => rfl
  | cons nd ns ih =>
    simp only [List.flatMap_cons, List.map_append, List.toFinset_append,
      List.map_map, List.map_cons, List.toFinset_cons]
    rw [ih]
    have hconst :
        ((List.range v).map ((fun vn => vn.node.id) ∘
          (fun i => VNode.mk (hash64 (nd.id ++ "#" ++ toString i)) nd i))) =
          List.replicate v nd.id := by
      rw [show ((fun vn => vn.node.id) ∘
          (fun i => VNode.mk (hash64 (nd.id ++ "#" ++ toString i)) nd i)) =
          (fun _ => nd.id) from rfl]
      rw [List.map_const', List.length_range]
    rw [hconst, List.toFinset_replicate_of_ne_zero (by omega)]
    ext x
    simp [Finset.mem_union, Finset.mem_insert]

/-- Claim C8 (ring replica selection): for a ring built from `nodes` with at
least one vnode per node and distinct node ids, `GetReplicas key n` — which
starts at the first vnode with token `≥ H(key)` (wrapping to 0) and walks
clockwise emitting each node on first sight of its id — returns exactly
`min n |nodes|` distinct nodes. -/
theorem ring_replica_selection_C8 (nodes : List NodeInfo) (v n : Nat)
    (key : String) (hv : 1 ≤ v) (hn : 1 ≤ n)
    (hnodup : (nodes.map (fun nd => nd.id)).Nodup) :
    (getReplicas (ringNew nodes v) key n).length = min n nodes.length ∧
      ((getReplicas (ringNew nodes v) key n).map (fun nd => nd.id)).Nodup := by
  have hperm : (ringNew nodes v).vnodes.Perm
      (nodes.flatMap (fun nd =>
        (List.range v).map
          (fun i => VNode.mk (hash64 (nd.id ++ "#" ++ toString i)) nd i))) :=
    List.mergeSort_perm _ _
  have hids : ((ringNew nodes v).vnodes.map (fun vn => vn.node.id)).toFinset =
      (nodes.map (fun nd => nd.id)).toFinset := by
    rw [toFinset_of_perm (hperm.map (fun vn => vn.node.id))]
    exact ringNew_ids_toFinset nodes v hv
  by_cases hempty : (ringNew nodes v).vnodes.isEmpty
  · have hvn : (ringNew nodes v).vnodes = [] := by
      cases hh : (ringNew nodes v).vnodes with
      | nil => rfl
      | cons a t => rw [hh] at hempty; simp [List.isEmpty] at hempty
    have hnodes : nodes = [] := by
      cases hnn : nodes with
      | nil => rfl
      | cons n0 ns =>
        exfalso
        have hmem : VNode.mk (hash64 (n0.id ++ "#" ++ toString 0)) n0 0 ∈
            (ringNew nodes v).vnodes := by
          rw [hperm.mem_iff, hnn]
          simp only [List.flatMap_cons, List.mem_append]
          left
          exact List.mem_map.mpr ⟨0, List.mem_range.mpr (by omega), rfl⟩
        rw [hvn] at hmem
        exact absurd hmem (List.not_mem_nil _)
    subst hnodes
    unfold getReplicas
    rw [if_pos (Or.inl hempty)]
    simp
  · have hcond : ¬ ((ringNew nodes v).vnodes.isEmpty ∨ n = 0) := by
      rintro (h | h)
      · exact hempty h
      · omega
    unfold getReplicas
    rw [if_neg hcond]
    have hrotperm :
        ((ringNew nodes v).vnodes.drop (ringSearch (ringNew nodes v) (hash64 key)) ++
          (ringNew nodes v).vnodes.take
            (ringSearch (ringNew nodes v) (hash64 key))).Perm
          (ringNew nodes v).vnodes := by
      refine (List.perm_append_comm).trans ?_
      rw [List.take_append_drop]
    constructor
    · rw [ringWalk_length, distinctCount_toFinset]
      rw [toFinset_of_perm (hrotperm.map (fun vn => vn.node.id)), hids]
      simp only [List.toFinset_nil, Finset.sdiff_empty]
      rw [List.toFinset_card_of_nodup hnodup, List.length_map]
    · exact (ringWalk_nodup _ n []).1

/-- Witness for C8: three nodes, two vnodes each; any key yields exactly
`min 2 3 = 2` distinct replicas. -/
theorem ring_replica_selection_C8_witness :
    (1 ≤ 2 ∧ 1 ≤ 2 ∧
      (([NodeInfo.mk "n1" "a1", NodeInfo.mk "n2" "a2",
         NodeInfo.mk "n3" "a3"].map (fun nd => nd.id)).Nodup)) ∧
      ((getReplicas (ringNew [NodeInfo.mk "n1" "a1", NodeInfo.mk "n2" "a2",
          NodeInfo.mk "n3" "a3"] 2) "cat" 2).length =
        min 2 [NodeInfo.mk "n1" "a1", NodeInfo.mk "n2" "a2",
          NodeInfo.mk "n3" "a3"].length ∧
      ((getReplicas (ringNew [NodeInfo.mk "n1" "a1", NodeInfo.mk "n2" "a2",
          NodeInfo.mk "n3" "a3"] 2) "cat" 2).map (fun nd => nd.id)).Nodup) :=
  ⟨⟨by decide, by decide, by decide⟩,
   ring_replica_selection_C8 _ 2 2 "cat" (by decide) (by decide) (by decide)⟩

/-! ### Claim C7: read-repair targeting in `Get` -/

/-- One network-successful replica response collected by `Get`
(the `result` struct: node, record, found). -/
structure RResult where
  node : NodeInfo
  record : Record
  found : Bool
deriving DecidableEq, Repr

/-- The LWW winner resolution loop of `Get`: fold `Newer` over the
`found` responses, seeding with the first one. -/
def getWinner (resps : List RResult) : Option Record :=
  resps.foldl
    (fun acc r =>
      if r.found then
        match acc with
        | none => some r.record
        | some w => some (Newer w r.record)
      else acc)
    none

/-- The `needsRepair` test of `Get`: not-found replicas always need repair;
a found replica needs repair iff `Newer(its record, winner)` has the
winner's version while its own version differs from the winner's. -/
def needsRepair (r : RResult) (winner : Record) : Bool :=
  if r.found then
    decide (sameVersion (Newer r.record winner) winner) &&
      ! decide (sameVersion r.record winner)
  else true

/-- The responses `Get` launches an asynchronous `replica_put(n, winner)`
for (no repair at all when no response was found). -/
def repairTargets (resps : List RResult) : List RResult :=
  match getWinner resps with
  | none => []
  | some w => resps.filter (fun r => needsRepair r w)

/-- The repair test fires exactly on not-found responses and on responses
strictly `<v`-older than the winner. -/
theorem needsRepair_iff (r : RResult) (w : Record) :
    needsRepair r w = true ↔ (r.found = false ∨ (r.found = true ∧ ltv r.record w)) := by
  cases hf : r.found with
  | false => simp [needsRepair, hf]
  | true =>
    simp only [needsRepair, hf, if_pos, Bool.and_eq_true, Bool.not_eq_true',
      decide_eq_true_eq, decide_eq_false_iff_not]
    constructor
    · rintro ⟨h1, h2⟩
      by_cases hs : sameVersion r.record w
      · exact absurd hs h2
      · rcases newer_max_of_not_sameVersion hs with ⟨he, hl⟩ | ⟨he, hl⟩
        · rw [he] at h1
          exact absurd h1 h2
        · exact Or.inr ⟨by simp, hl⟩
    · rintro (h | ⟨_, hl⟩)
      · exact absurd h (by simp)
      · have hs : ¬ sameVersion r.record w := by
          intro hs
          exact not_ltv_of_sameVersion hs hl
        rcases newer_max_of_not_sameVersion hs with ⟨he, hl'⟩ | ⟨he, _⟩
        · exact absurd hl (fun hh => ltv_asymm hh hl')
        · rw [he]
          refine ⟨?_, hs⟩
          simp [sameVersion]

/-- Claim C7 (read-repair targeting): when the `found` responses resolve to
the LWW winner `w`, a responding replica is sent a repair write exactly when
it reported not-found or its record is strictly `<v`-older than `w`; a
response whose `(ts, writer_id)` equals the winner's is treated as the same
version and is not repaired. -/
theorem read_repair_targeting_C7 (resps : List RResult) (w : Record)
    (r : RResult) (hw : getWinner resps = some w) (hr : r ∈ resps) :
    (r ∈ repairTargets resps ↔
        (r.found = false ∨ (r.found = true ∧ ltv r.record w))) ∧
      (sameVersion r.record w → r.found = true → r ∉ repairTargets resps) := by
  have hmem : r ∈ repairTargets resps ↔ needsRepair r w = true := by
    unfold repairTargets
    rw [hw]
    rw [List.mem_filter]
    exact ⟨fun h => h.2, fun h => ⟨hr, h⟩⟩
  constructor
  · rw [hmem, needsRepair_iff]
  · intro hs hf hin
    rcases (needsRepair_iff r w).mp (hmem.mp hin) with h | ⟨_, hl⟩
    · rw [hf] at h
      exact absurd h (by simp)
    · exact not_ltv_of_sameVersion hs hl

/-- Witness for C7: three responses — the winner holder, a strictly older
one, and a not-found one; exactly the latter two are repaired, and a
same-version response is never repaired. -/
theorem read_repair_targeting_C7_witness :
    (getWinner
        [RResult.mk (NodeInfo.mk "n1" "a1") (Record.mk "k" [2] 9 [2] false) true,
         RResult.mk (NodeInfo.mk "n2" "a2") (Record.mk "k" [1] 3 [1] false) true,
         RResult.mk (NodeInfo.mk "n3" "a3") (Record.mk "" [] 0 [] false) false] =
        some (Record.mk "k" [2] 9 [2] false) ∧
      RResult.mk (NodeInfo.mk "n2" "a2") (Record.mk "k" [1] 3 [1] false) true ∈
        [RResult.mk (NodeInfo.mk "n1" "a1") (Record.mk "k" [2] 9 [2] false) true,
         RResult.mk (NodeInfo.mk "n2" "a2") (Record.mk "k" [1] 3 [1] false) true,
         RResult.mk (NodeInfo.mk "n3" "a3") (Record.mk "" [] 0 [] false) false]) ∧
      ((RResult.mk (NodeInfo.mk "n2" "a2") (Record.mk "k" [1] 3 [1] false) true ∈
          repairTargets
            [RResult.mk (NodeInfo.mk "n1" "a1") (Record.mk "k" [2] 9 [2] false) true,
             RResult.mk (NodeInfo.mk "n2" "a2") (Record.mk "k" [1] 3 [1] false) true,
             RResult.mk (NodeInfo.mk "n3" "a3") (Record.mk "" [] 0 [] false) false] ↔
          ((RResult.mk (NodeInfo.mk "n2" "a2") (Record.mk "k" [1] 3 [1] false)
              true).found = false ∨
            ((RResult.mk (NodeInfo.mk "n2" "a2") (Record.mk "k" [1] 3 [1] false)
              true).found = true ∧
              ltv (Record.mk "k" [1] 3 [1] false) (Record.mk "k" [2] 9 [2] false)))) ∧
        (sameVersion (Record.mk "k" [1] 3 [1] false) (Record.mk "k" [2] 9 [2] false) →
          (RResult.mk (NodeInfo.mk "n2" "a2") (Record.mk "k" [1] 3 [1] false)
            true).found = true →
          RResult.mk (NodeInfo.mk "n2" "a2") (Record.mk "k" [1] 3 [1] false) true ∉
            repairTargets
              [RResult.mk (NodeInfo.mk "n1" "a1") (Record.mk "k" [2] 9 [2] false) true,
               RResult.mk (NodeInfo.mk "n2" "a2") (Record.mk "k" [1] 3 [1] false) true,
               RResult.mk (NodeInfo.mk "n3" "a3") (Record.mk "" [] 0 [] false) false])) :=
  ⟨⟨by decide, by decide⟩,
   read_repair_targeting_C7 _ (Record.mk "k" [2] 9 [2] false) _ (by decide) (by decide)⟩

/-! ### Claim C4: the write path `PutRecord` -/

/-- `coordinator.Config` (the timeout is irrelevant to the sequential model;
a replica that fails within the deadline is a `false` in the `ok` oracle). -/
structure CoordCfg where
  n : Nat
  r : Nat
  w : Nat
  numNodes : Nat
deriving DecidableEq, Repr

/-- The errors `PutRecord` can return. -/
inductive CoordError where
  | missingNumNodes
  | noReplicas
  | quorumNotReached (acks need : Nat) (noFallbacks : Bool)
deriving DecidableEq, Repr

/-- Per-node replica stores, indexed by node id. -/
def Stores : Type := String → StoreSt

/-- A successful `replica_put` applies `PutLWW` at the target node's store
(self-dispatch calls it directly, a remote call reaches it through the
`/internal/put` handler — the store effect is the same; the hint
bookkeeping of `hint_for` never touches any store). -/
def applyPut (st : Stores) (nid : String) (rec : Record) : Stores :=
  fun i => if i = nid then (putLWW (st nid) rec).1 else st i

/-- Phase 1 of `PutRecord`: the parallel fan-out to the preferred replicas.
Every launched `replica_put` lands at its replica when that replica is up
(`ok`), and the coordinator counts the successes; the Go early `return` at
`acks ≥ W` only stops the counting — the already-launched writes land
regardless — so the sequential model processes the whole preferred list and
compares against `W` afterwards. -/
def phase1 (ok : NodeInfo → Bool) (rec : Record) :
    List NodeInfo → Stores → Nat → Stores × Nat
  | [], st, acks => (st, acks)
  | nd :: rest, st, acks =>
    if ok nd then phase1 ok rec rest (applyPut st nd.id rec) (acks + 1)
    else phase1 ok rec rest st acks

/-- Phase 2 of `PutRecord`: walk the fallbacks in ring order while the
quorum is still short, one attempt each, counting an ack per success. -/
def phase2 (ok : NodeInfo → Bool) (rec : Record) (w : Nat) :
    List NodeInfo → Stores → Nat → Stores × Nat
  | [], st, acks => (st, acks)
  | fb :: rest, st, acks =>
    if w ≤ acks then (st, acks)
    else if ok fb then phase2 ok rec w rest (applyPut st fb.id rec) (acks + 1)
    else phase2 ok rec w rest st acks

/-- `Coordinator.PutRecord`: replica order from the ring over all
`numNodes` nodes, preferred = first `N`, then the sloppy-quorum fallback
walk; quorum-unreached errors carry `acks` and `W` as the Go messages do. -/
def putRecord (cfg : CoordCfg) (rg : Ring) (ok : NodeInfo → Bool)
    (st : Stores) (key : String) (rec : Record) :
    Except CoordError Unit × Stores :=
  if cfg.numNodes = 0 then (.error .missingNumNodes, st)
  else
    let order := getReplicas rg key cfg.numNodes
    if order.isEmpty then (.error .noReplicas, st)
    else
      let prefN := min cfg.n order.length
      let res1 := phase1 ok rec (order.take prefN) st 0
      if cfg.w ≤ res1.2 then (.ok (), res1.1)
      else if (order.drop prefN).isEmpty then
        (.error (.quorumNotReached res1.2 cfg.w true), res1.1)
      else
        let res2 := phase2 ok rec cfg.w (order.drop prefN) res1.1 res1.2
        if cfg.w ≤ res2.2 then (.ok (), res2.1)
        else (.error (.quorumNotReached res2.2 cfg.w false), res2.1)

/-- The cumulative store effect of a list of successful replica puts. -/
def bulkApply (ok : NodeInfo → Bool) (rec : Record) (l : List NodeInfo)
    (st : Stores) : Stores :=
  l.foldl (fun s nd => if ok nd then applyPut s nd.id rec else s) st

theorem bulkApply_cons (ok : NodeInfo → Bool) (rec : Record) (nd : NodeInfo)
    (rest : List NodeInfo) (st : Stores) :
    bulkApply ok rec (nd :: rest) st =
      bulkApply ok rec rest (if ok nd = true then applyPut st nd.id rec else st) :=
  rfl

theorem phase1_eq (ok : NodeInfo → Bool) (rec : Record) :
    ∀ (l : List NodeInfo) (st : Stores) (acks : Nat),
      phase1 ok rec l st acks = (bulkApply ok rec l st, acks + l.countP ok) := by
  intro l
  induction l with
  | nil => intro st acks; simp [phase1, bulkApply]
  | cons nd rest ih =>
    intro st acks
    by_cases hok : ok nd = true
    · have h1 : phase1 ok rec (nd :: rest) st acks =
          phase1 ok rec rest (applyPut st nd.id rec) (acks + 1) := by
        simp only [phase1]
        rw [if_pos hok]
      rw [h1, ih, bulkApply_cons, if_pos hok, List.countP_cons, if_pos hok]
      congr 1
      omega
    · have h1 : phase1 ok rec (nd :: rest) st acks =
          phase1 ok rec rest st acks := by
        simp only [phase1]
        rw [if_neg hok]
      rw [h1, ih, bulkApply_cons, if_neg hok, List.countP_cons, if_neg hok]
      simp

theorem phase2_eq (ok : NodeInfo → Bool) (rec : Record) (w : Nat) :
    ∀ (l : List NodeInfo) (st : Stores) (acks : Nat),
      acks + l.countP ok < w →
      phase2 ok rec w l st acks = (bulkApply ok rec l st, acks + l.countP ok) := by
  intro l
  induction l with
  | nil => intro st acks _; simp [phase2, bulkApply]
  | cons fb rest ih =>
    intro st acks hlt
    have hacks : ¬ w ≤ acks := by omega
    by_cases hok : ok fb = true
    · have hcnt : (fb :: rest).countP ok = rest.countP ok + 1 := by
        rw [List.countP_cons, if_pos hok]
      have h1 : phase2 ok rec w (fb :: rest) st acks =
          phase2 ok rec w rest (applyPut st fb.id rec) (acks + 1) := by
        simp only [phase2]
        rw [if_neg hacks, if_pos hok]
      rw [h1, ih (applyPut st fb.id rec) (acks + 1) (by omega),
        bulkApply_cons, if_pos hok, hcnt]
      congr 1
      omega
    · have hcnt : (fb :: rest).countP ok = rest.countP ok := by
        rw [List.countP_cons, if_neg hok]
        omega
      have h1 : phase2 ok rec w (fb :: rest) st acks =
          phase2 ok rec w rest st acks := by
        simp only [phase2]
        rw [if_neg hacks, if_neg hok]
      rw [h1, ih st acks (by omega), bulkApply_cons, if_neg hok, hcnt]

theorem bulkApply_append (ok : NodeInfo → Bool) (rec : Record)
    (l1 l2 : List NodeInfo) (st : Stores) :
    bulkApply ok rec (l1 ++ l2) st = bulkApply ok rec l2 (bulkApply ok rec l1 st) := by
  simp [bulkApply, List.foldl_append]

theorem bulkApply_miss (ok : NodeInfo → Bool) (rec : Record) :
    ∀ (l : List NodeInfo) (st : Stores) (i : String),
      (∀ x ∈ l, ¬ (x.id = i ∧ ok x = true)) →
      bulkApply ok rec l st i = st i := by
  intro l
  induction l with
  | nil => intro st i _; rfl
  | cons nd rest ih =>
    intro st i hmiss
    rw [bulkApply_cons]
    by_cases hok : ok nd = true
    · rw [if_pos hok]
      have hne : nd.id ≠ i := fun hh => hmiss nd (List.mem_cons_self _ _) ⟨hh, hok⟩
      rw [ih (applyPut st nd.id rec) i (fun x hx => hmiss x (List.mem_cons_of_mem _ hx))]
      unfold applyPut
      rw [if_neg (fun hh => hne hh.symm)]
    · rw [if_neg hok]
      exact ih st i (fun x hx => hmiss x (List.mem_cons_of_mem _ hx))

theorem bulkApply_hit (ok : NodeInfo → Bool) (rec : Record) :
    ∀ (l : List NodeInfo) (st : Stores) (nd : NodeInfo),
      (l.map (fun x => x.id)).Nodup → nd ∈ l → ok nd = true →
      bulkApply ok rec l st nd.id = (putLWW (st nd.id) rec).1 := by
  intro l
  induction l with
  | nil => intro st nd _ hmem _; exact absurd hmem (List.not_mem_nil _)
  | cons hd rest ih =>
    intro st nd hnodup hmem hok
    rw [List.map_cons] at hnodup
    have hnd := List.nodup_cons.mp hnodup
    rw [bulkApply_cons]
    rcases List.mem_cons.mp hmem with h1 | hmem'
    · subst h1
      rw [if_pos hok]
      have hmiss : ∀ x ∈ rest, ¬ (x.id = nd.id ∧ ok x = true) := by
        rintro x hx ⟨hid, _⟩
        exact hnd.1 (hid ▸ List.mem_map.mpr ⟨x, hx, rfl⟩)
      rw [bulkApply_miss ok rec rest (applyPut st nd.id rec) nd.id hmiss]
      unfold applyPut
      rw [if_pos rfl]
    · have hne : hd.id ≠ nd.id := by
        intro hh
        exact hnd.1 (hh ▸ List.mem_map.mpr ⟨nd, hmem', rfl⟩)
      by_cases hokhd : ok hd = true
      · rw [if_pos hokhd, ih (applyPut st hd.id rec) nd hnd.2 hmem' hok]
        unfold applyPut
        rw [if_neg (fun hh => hne hh.symm)]
      · rw [if_neg hokhd]
        exact ih st nd hnd.2 hmem' hok

theorem getReplicas_nodup (rg : Ring) (key : String) (n : Nat) :
    ((getReplicas rg key n).map (fun nd => nd.id)).Nodup := by
  unfold getReplicas
  split
  · simp
  · exact (ringWalk_nodup _ n []).1

/-- The whole failing run of `PutRecord`, as one equation: when the total
number of up replicas in the ring order is below `W`, the call returns a
quorum-unreached error carrying that ack count and `W`, and the replica
stores are exactly those produced by the successful puts. -/
theorem putRecord_fail_eq (cfg : CoordCfg) (rg : Ring) (ok : NodeInfo → Bool)
    (st : Stores) (key : String) (rec : Record)
    (hnum : ¬ cfg.numNodes = 0)
    (horder : getReplicas rg key cfg.numNodes ≠ [])
    (hfail : (getReplicas rg key cfg.numNodes).countP ok < cfg.w) :
    putRecord cfg rg ok st key rec =
      (.error (.quorumNotReached ((getReplicas rg key cfg.numNodes).countP ok)
          cfg.w
          ((getReplicas rg key cfg.numNodes).drop
            (min cfg.n (getReplicas rg key cfg.numNodes).length)).isEmpty),
       bulkApply ok rec (getReplicas rg key cfg.numNodes) st) := by
  have hio : (getReplicas rg key cfg.numNodes).isEmpty = false := by
    cases hh : getReplicas rg key cfg.numNodes with
    | nil => exact absurd hh horder
    | cons a t => rfl
  have htd :
      (getReplicas rg key cfg.numNodes).take
          (min cfg.n (getReplicas rg key cfg.numNodes).length) ++
        (getReplicas rg key cfg.numNodes).drop
          (min cfg.n (getReplicas rg key cfg.numNodes).length) =
        getReplicas rg key cfg.numNodes := List.take_append_drop _ _
  have hcnt :
      ((getReplicas rg key cfg.numNodes).take
          (min cfg.n (getReplicas rg key cfg.numNodes).length)).countP ok +
        ((getReplicas rg key cfg.numNodes).drop
          (min cfg.n (getReplicas rg key cfg.numNodes).length)).countP ok =
        (getReplicas rg key cfg.numNodes).countP ok := by
    rw [← List.countP_append, htd]
  have hph1 := phase1_eq ok rec
    ((getReplicas rg key cfg.numNodes).take
      (min cfg.n (getReplicas rg key cfg.numNodes).length)) st 0
  have hacks1 :
      ¬ cfg.w ≤ (phase1 ok rec
        ((getReplicas rg key cfg.numNodes).take
          (min cfg.n (getReplicas rg key cfg.numNodes).length)) st 0).2 := by
    rw [hph1]
    dsimp only
    omega
  unfold putRecord
  rw [if_neg hnum]
  dsimp only
  rw [if_neg (by rw [hio]; simp), if_neg hacks1]
  by_cases hdrop :
      ((getReplicas rg key cfg.numNodes).drop
        (min cfg.n (getReplicas rg key cfg.numNodes).length)).isEmpty
  · rw [if_pos hdrop, hph1]
    have hdrop' : (getReplicas rg key cfg.numNodes).drop
        (min cfg.n (getReplicas rg key cfg.numNodes).length) = [] := by
      rwa [List.isEmpty_iff] at hdrop
    have hcnt0 :
        ((getReplicas rg key cfg.numNodes).take
          (min cfg.n (getReplicas rg key cfg.numNodes).length)).countP ok =
          (getReplicas rg key cfg.numNodes).countP ok := by
      rw [hdrop'] at hcnt
      simpa using hcnt
    have hbulk :
        bulkApply ok rec (getReplicas rg key cfg.numNodes) st =
          bulkApply ok rec
            ((getReplicas rg key cfg.numNodes).take
              (min cfg.n (getReplicas rg key cfg.numNodes).length)) st := by
      conv_lhs => rw [← htd]
      rw [bulkApply_append, hdrop']
      rfl
    rw [hdrop, hbulk]
    dsimp only
    rw [hcnt0]
    simp
  · rw [if_neg hdrop, hph1]
    dsimp only
    have hph2 := phase2_eq ok rec cfg.w
      ((getReplicas rg key cfg.numNodes).drop
        (min cfg.n (getReplicas rg key cfg.numNodes).length))
      (bulkApply ok rec
        ((getReplicas rg key cfg.numNodes).take
          (min cfg.n (getReplicas rg key cfg.numNodes).length)) st)
      (0 + ((getReplicas rg key cfg.numNodes).take
        (min cfg.n (getReplicas rg key cfg.numNodes).length)).countP ok)
      (by omega)
    rw [hph2]
    dsimp only
    have hacks2 :
        ¬ cfg.w ≤ 0 + ((getReplicas rg key cfg.numNodes).take
            (min cfg.n (getReplicas rg key cfg.numNodes).length)).countP ok +
          ((getReplicas rg key cfg.numNodes).drop
            (min cfg.n (getReplicas rg key cfg.numNodes).length)).countP ok := by
      omega
    rw [if_neg hacks2]
    have hbulk :
        bulkApply ok rec
            ((getReplicas rg key cfg.numNodes).drop
              (min cfg.n (getReplicas rg key cfg.numNodes).length))
            (bulkApply ok rec
              ((getReplicas rg key cfg.numNodes).take
                (min cfg.n (getReplicas rg key cfg.numNodes).length)) st) =
          bulkApply ok rec (getReplicas rg key cfg.numNodes) st := by
      rw [← bulkApply_append, htd]
    have hdropf :
        ((getReplicas rg key cfg.numNodes).drop
          (min cfg.n (getReplicas rg key cfg.numNodes).length)).isEmpty = false :=
      (Bool.not_eq_true _) ▸ hdrop
    rw [hbulk, hdropf]
    have : 0 + ((getReplicas rg key cfg.numNodes).take
          (min cfg.n (getReplicas rg key cfg.numNodes).length)).countP ok +
        ((getReplicas rg key cfg.numNodes).drop
          (min cfg.n (getReplicas rg key cfg.numNodes).length)).countP ok =
        (getReplicas rg key cfg.numNodes).countP ok := by
      omega
    rw [this]

/-- Claim C4 (write quorum failure): when, after the preferred-replica phase
and the sloppy-quorum fallback phase, the total acknowledgement count is
still below `W`, `PutRecord` fails with a quorum-unreached error — and no
rollback happens: every replica whose write succeeded keeps the `PutLWW` of
the new record, every other store is untouched. -/
theorem write_quorum_failure_C4 (cfg : CoordCfg) (rg : Ring)
    (ok : NodeInfo → Bool) (st : Stores) (key : String) (rec : Record)
    (hnum : ¬ cfg.numNodes = 0)
    (horder : getReplicas rg key cfg.numNodes ≠ [])
    (hfail : (getReplicas rg key cfg.numNodes).countP ok < cfg.w) :
    (∃ fb : Bool, (putRecord cfg rg ok st key rec).1 =
        .error (.quorumNotReached ((getReplicas rg key cfg.numNodes).countP ok)
          cfg.w fb)) ∧
      (∀ nd ∈ getReplicas rg key cfg.numNodes,
        (ok nd = true →
          (putRecord cfg rg ok st key rec).2 nd.id = (putLWW (st nd.id) rec).1) ∧
        (ok nd = false → (putRecord cfg rg ok st key rec).2 nd.id = st nd.id)) ∧
      (∀ i : String, (∀ nd ∈ getReplicas rg key cfg.numNodes, nd.id ≠ i) →
        (putRecord cfg rg ok st key rec).2 i = st i) := by
  have heq := putRecord_fail_eq cfg rg ok st key rec hnum horder hfail
  have hnodup := getReplicas_nodup rg key cfg.numNodes
  refine ⟨⟨_, by rw [heq]⟩, ?_, ?_⟩
  · intro nd hnd
    constructor
    · intro hok
      rw [heq]
      exact bulkApply_hit ok rec _ st nd hnodup hnd hok
    · intro hnok
      rw [heq]
      dsimp only
      apply bulkApply_miss
      intro x hx hcontra
      rcases hcontra with ⟨hid, hokx⟩
      have hxnd : x = nd := List.inj_on_of_nodup_map hnodup hx hnd hid
      rw [hxnd] at hokx
      rw [hokx] at hnok
      exact Bool.noConfusion hnok
  · intro i hmiss
    rw [heq]
    dsimp only
    apply bulkApply_miss
    rintro x hx ⟨hid, _⟩
    exact hmiss x hx hid

/-- A ring with at least one vnode yields at least one replica. -/
theorem getReplicas_ne_nil (rg : Ring) (key : String) (n : Nat)
    (hv : rg.vnodes ≠ []) (hn : n ≠ 0) : getReplicas rg key n ≠ [] := by
  have hio : rg.vnodes.isEmpty = false := by
    cases hh : rg.vnodes with
    | nil => exact absurd hh hv
    | cons a t => rfl
  unfold getReplicas
  rw [if_neg (by rw [hio]; simp [hn])]
  intro hcontra
  have hlen := ringWalk_length
    (rg.vnodes.drop (ringSearch rg (hash64 key)) ++
      rg.vnodes.take (ringSearch rg (hash64 key))) n []
  rw [hcontra] at hlen
  have hrotlen :
      (rg.vnodes.drop (ringSearch rg (hash64 key)) ++
        rg.vnodes.take (ringSearch rg (hash64 key))).length = rg.vnodes.length := by
    rw [List.length_append, List.length_drop, List.length_take]
    omega
  have hpos : 0 < rg.vnodes.length := by
    cases hh : rg.vnodes with
    | nil => exact absurd hh hv
    | cons a t => simp [hh]
  cases hrot : rg.vnodes.drop (ringSearch rg (hash64 key)) ++
      rg.vnodes.take (ringSearch rg (hash64 key)) with
  | nil =>
    rw [hrot] at hrotlen
    simp at hrotlen
    omega
  | cons v vt =>
    rw [hrot] at hlen
    have : 1 ≤ distinctCount (v :: vt) [] := by
      unfold distinctCount
      rw [if_neg (by simp)]
      omega
    simp at hlen
    omega

def c4ring : Ring :=
  ⟨[VNode.mk 5 (NodeInfo.mk "n1" "a1") 0, VNode.mk 10 (NodeInfo.mk "n2" "a2") 0,
    VNode.mk 15 (NodeInfo.mk "n3" "a3") 0]⟩

def c4cfg : CoordCfg := ⟨2, 1, 2, 3⟩

def c4stores : Stores := fun _ => StoreSt.empty

/-- Witness for C4: all three replicas are down; the `PUT` fails with a
quorum-unreached error and every store is left untouched. -/
theorem write_quorum_failure_C4_witness :
    (¬ c4cfg.numNodes = 0 ∧ getReplicas c4ring "k" c4cfg.numNodes ≠ [] ∧
      (getReplicas c4ring "k" c4cfg.numNodes).countP (fun _ => false) < c4cfg.w) ∧
      ((∃ fb : Bool,
        (putRecord c4cfg c4ring (fun _ => false) c4stores "k"
            (Record.mk "k" [1] 1 [1] false)).1 =
          .error (.quorumNotReached
            ((getReplicas c4ring "k" c4cfg.numNodes).countP (fun _ => false))
            c4cfg.w fb)) ∧
      (∀ nd ∈ getReplicas c4ring "k" c4cfg.numNodes,
        ((fun _ => false : NodeInfo → Bool) nd = true →
          (putRecord c4cfg c4ring (fun _ => false) c4stores "k"
            (Record.mk "k" [1] 1 [1] false)).2 nd.id =
            (putLWW (c4stores nd.id) (Record.mk "k" [1] 1 [1] false)).1) ∧
        ((fun _ => false : NodeInfo → Bool) nd = false →
          (putRecord c4cfg c4ring (fun _ => false) c4stores "k"
            (Record.mk "k" [1] 1 [1] false)).2 nd.id = c4stores nd.id)) ∧
      (∀ i : String, (∀ nd ∈ getReplicas c4ring "k" c4cfg.numNodes, nd.id ≠ i) →
        (putRecord c4cfg c4ring (fun _ => false) c4stores "k"
          (Record.mk "k" [1] 1 [1] false)).2 i = c4stores i)) :=
  ⟨⟨by decide,
    getReplicas_ne_nil c4ring "k" c4cfg.numNodes (by decide) (by decide),
    by
      rw [List.countP_eq_zero.mpr (by intro a _; simp)]
      decide⟩,
   write_quorum_failure_C4 c4cfg c4ring (fun _ => false) c4stores "k"
     (Record.mk "k" [1] 1 [1] false) (by decide)
     (getReplicas_ne_nil c4ring "k" c4cfg.numNodes (by decide) (by decide))
     (by
       rw [List.countP_eq_zero.mpr (by intro a _; simp)]
       decide)⟩

end MiniDynamo
